import Mathlib

/-!
# Verification of the bzr-rewrite rebase core

Shallow embedding of `rebase.py` from the bzr-rewrite repository:

* plan marshalling (`marshall_rebase_plan` / `unmarshall_rebase_plan`),
* the simple linear plan generator (`generate_simple_plan`),
* the transpose plan generator (`generate_transpose_plan`),
* the rebase executor (`rebase_todo` / `rebase`) and the plan-file handling
  of the `rebase` command.

Python dictionaries are embedded as insertion-ordered association lists,
Python lists as Lean lists, and revision ids as strings (`List Char` at the
marshalling layer, where the functions inspect individual characters).
Python-level failures (`assert`, `IndexError`, `ValueError`,
`UnknownFormatError`) are embedded as `Option`/`none` results.  Loops whose
termination is not structural are given explicit fuel together with proofs
that the chosen fuel suffices.
-/

namespace BzrRewrite

/-! ## Association-list embedding of Python dictionaries

`lookupA` is `d[k]` (first match), `insertA` is `d[k] = v` (updates the
existing entry in place, otherwise appends, preserving insertion order the
way a Python dict does), `eraseA` is `del d[k]`. -/

def lookupA {α β : Type} [DecidableEq α] : List (α × β) → α → Option β
  | [], _ => none
  | (k0, v0) :: es, k => if k0 = k then some v0 else lookupA es k

def insertA {α β : Type} [DecidableEq α] : List (α × β) → α → β → List (α × β)
  | [], k, v => [(k, v)]
  | (k0, v0) :: es, k, v => if k0 = k then (k0, v) :: es else (k0, v0) :: insertA es k v

def eraseA {α β : Type} [DecidableEq α] : List (α × β) → α → List (α × β)
  | [], _ => []
  | (k0, v0) :: es, k => if k0 = k then es else (k0, v0) :: eraseA es k

theorem lookupA_nil {α β : Type} [DecidableEq α] (k : α) :
    lookupA ([] : List (α × β)) k = none := rfl

theorem lookupA_cons {α β : Type} [DecidableEq α] (k0 : α) (v0 : β) (es : List (α × β)) (k : α) :
    lookupA ((k0, v0) :: es) k = if k0 = k then some v0 else lookupA es k := rfl

/-! ## Characters and decimal numerals

`toDecimal` embeds Python's `"%d" % n` for a natural number, `parseDecimal`
embeds `int(s)` on its canonical output (a nonempty all-digits string; on
anything containing a non-digit it fails like `int` raising `ValueError`). -/

def nlChar : Char := '\n'

def spChar : Char := ' '

def digitChar (n : Nat) : Char :=
  match n with
  | 0 => '0' | 1 => '1' | 2 => '2' | 3 => '3' | 4 => '4'
  | 5 => '5' | 6 => '6' | 7 => '7' | 8 => '8' | _ => '9'

def charVal (c : Char) : Option Nat :=
  if 48 ≤ c.toNat ∧ c.toNat ≤ 57 then some (c.toNat - 48) else none

def toDecimalAux : Nat → Nat → List Char → List Char
  | 0, _, acc => acc
  | fuel + 1, n, acc =>
    if n < 10 then digitChar (n % 10) :: acc
    else toDecimalAux fuel (n / 10) (digitChar (n % 10) :: acc)

def toDecimal (n : Nat) : List Char := toDecimalAux (n + 1) n []

def parseDecimalAux : List Char → Nat → Option Nat
  | [], acc => some acc
  | c :: cs, acc =>
    match charVal c with
    | some d => parseDecimalAux cs (acc * 10 + d)
    | none => none

def parseDecimal (l : List Char) : Option Nat :=
  match l with
  | [] => none
  | _ => parseDecimalAux l 0

theorem charVal_digitChar {d : Nat} (hd : d < 10) : charVal (digitChar d) = some d := by
  interval_cases d <;> decide

theorem digitChar_ne_nl {d : Nat} (hd : d < 10) : digitChar d ≠ nlChar := by
  interval_cases d <;> decide

theorem digitChar_ne_sp {d : Nat} (hd : d < 10) : digitChar d ≠ spChar := by
  interval_cases d <;> decide

theorem toDecimalAux_mem {fuel n : Nat} {acc : List Char} {c : Char}
    (hc : c ∈ toDecimalAux fuel n acc) :
    c ∈ acc ∨ ∃ d, d < 10 ∧ c = digitChar d := by
  induction fuel generalizing n acc with
  | zero => exact Or.inl hc
  | succ fuel ih =>
    simp only [toDecimalAux] at hc
    by_cases h : n < 10
    · rw [if_pos h] at hc
      rcases List.mem_cons.mp hc with hc1 | hc1
      · exact Or.inr ⟨n % 10, Nat.mod_lt _ (by norm_num), hc1⟩
      · exact Or.inl hc1
    · rw [if_neg h] at hc
      rcases ih hc with hc1 | hc1
      · rcases List.mem_cons.mp hc1 with hc2 | hc2
        · exact Or.inr ⟨n % 10, Nat.mod_lt _ (by norm_num), hc2⟩
        · exact Or.inl hc2
      · exact Or.inr hc1

theorem toDecimal_not_nl {n : Nat} : nlChar ∉ toDecimal n := by
  intro h
  rcases toDecimalAux_mem h with h' | ⟨d, hd, hc⟩
  · exact absurd h' (List.not_mem_nil _)
  · exact digitChar_ne_nl hd hc.symm

theorem toDecimal_not_sp {n : Nat} : spChar ∉ toDecimal n := by
  intro h
  rcases toDecimalAux_mem h with h' | ⟨d, hd, hc⟩
  · exact absurd h' (List.not_mem_nil _)
  · exact digitChar_ne_sp hd hc.symm

theorem toDecimalAux_ne_nil {fuel n : Nat} {acc : List Char} (hf : 0 < fuel) :
    toDecimalAux fuel n acc ≠ [] := by
  cases fuel with
  | zero => exact absurd hf (by omega)
  | succ fuel =>
    simp only [toDecimalAux]
    by_cases h : n < 10
    · simp [h]
    · simp only [h, if_neg, not_false_iff]
      cases fuel with
      | zero => simp [toDecimalAux]
      | succ fuel' => exact toDecimalAux_ne_nil (by omega)

theorem parseDecimalAux_toDecimalAux {fuel : Nat} :
    ∀ {n : Nat}, n < fuel → ∀ (acc : List Char) (k : Nat),
      ∃ e, parseDecimalAux (toDecimalAux fuel n acc) k =
        parseDecimalAux acc (k * 10 ^ e + n) ∧ n < 10 ^ e := by
  induction fuel with
  | zero => intro n hn; omega
  | succ fuel ih =>
    intro n hn acc k
    simp only [toDecimalAux]
    by_cases h : n < 10
    · refine ⟨1, ?_, by simpa using h⟩
      simp only [h, if_pos, parseDecimalAux, charVal_digitChar (Nat.mod_lt n (by norm_num))]
      have : n % 10 = n := Nat.mod_eq_of_lt h
      rw [this]
      norm_num
    · simp only [h, if_neg, not_false_iff]
      have hlt : n / 10 < fuel := by
        have := Nat.div_lt_self (by omega : 0 < n) (by norm_num : 1 < 10)
        omega
      rcases ih hlt (digitChar (n % 10) :: acc) k with ⟨e, he, hb⟩
      refine ⟨e + 1, ?_, ?_⟩
      · rw [he]
        simp only [parseDecimalAux, charVal_digitChar (Nat.mod_lt n (by norm_num))]
        have : (k * 10 ^ e + n / 10) * 10 + n % 10 = k * 10 ^ (e + 1) + n := by
          rw [pow_succ]
          have := Nat.div_add_mod n 10
          ring_nf
          omega
        rw [this]
      · have h1 : n < 10 * (n / 10) + 10 := by
          have := Nat.div_add_mod n 10
          have := Nat.mod_lt n (show 0 < 10 by norm_num)
          omega
        have h2 : n / 10 + 1 ≤ 10 ^ e := hb
        calc n < 10 * (n / 10) + 10 := h1
          _ = 10 * (n / 10 + 1) := by ring
          _ ≤ 10 * 10 ^ e := by omega
          _ = 10 ^ (e + 1) := by rw [pow_succ]; ring

theorem parseDecimal_eq_aux {l : List Char} (h : l ≠ []) : parseDecimal l = parseDecimalAux l 0 := by
  cases l with
  | nil => exact absurd rfl h
  | cons c cs => rfl

theorem parseDecimal_toDecimal (n : Nat) : parseDecimal (toDecimal n) = some n := by
  have hne : toDecimal n ≠ [] := toDecimalAux_ne_nil (by omega)
  rcases parseDecimalAux_toDecimalAux (show n < n + 1 by omega) [] 0 with ⟨e, he, _⟩
  rw [parseDecimal_eq_aux hne]
  unfold toDecimal
  rw [he]
  simp [parseDecimalAux]

/-! ## String splitting

`splitOnChar c` embeds Python's `text.split(c)` (single-character separator,
empty pieces kept), `splitOnce c` embeds `text.split(c, 1)` where the second
component is `none` when the separator does not occur (so that accessing
`pts[1]` is an `IndexError`). -/

def splitOnChar (c : Char) : List Char → List (List Char)
  | [] => [[]]
  | x :: xs =>
    match splitOnChar c xs with
    | [] => if x = c then [[], []] else [[x]]
    | h :: t => if x = c then [] :: h :: t else (x :: h) :: t

def splitOnce (c : Char) : List Char → List Char × Option (List Char)
  | [] => ([], none)
  | x :: xs =>
    if x = c then ([], some xs)
    else
      match splitOnce c xs with
      | (pre, rest) => (x :: pre, rest)

theorem splitOnChar_ne_nil (c : Char) (l : List Char) : splitOnChar c l ≠ [] := by
  cases l with
  | nil => simp [splitOnChar]
  | cons x xs =>
    simp only [splitOnChar]
    cases splitOnChar c xs with
    | nil => by_cases h : x = c <;> simp [h]
    | cons h t => by_cases hx : x = c <;> simp [hx]

theorem splitOnChar_append_sep {c : Char} {a : List Char} (ha : c ∉ a) (rest : List Char) :
    splitOnChar c (a ++ c :: rest) = a :: splitOnChar c rest := by
  induction a with
  | nil =>
    simp only [List.nil_append, splitOnChar]
    cases hs : splitOnChar c rest with
    | nil => exact absurd hs (splitOnChar_ne_nil c rest)
    | cons h t => simp
  | cons x xs ih =>
    have hx : x ≠ c := fun h => ha (h ▸ List.mem_cons_self x xs)
    have hxs : c ∉ xs := fun h => ha (List.mem_cons_of_mem x h)
    simp only [List.cons_append, splitOnChar]
    rw [List.append_eq, ih hxs]
    simp [hx]

theorem splitOnChar_no_sep {c : Char} {a : List Char} (ha : c ∉ a) :
    splitOnChar c a = [a] := by
  induction a with
  | nil => simp [splitOnChar]
  | cons x xs ih =>
    have hx : x ≠ c := fun h => ha (h ▸ List.mem_cons_self x xs)
    have hxs : c ∉ xs := fun h => ha (List.mem_cons_of_mem x h)
    simp only [splitOnChar, ih hxs]
    simp [hx]

theorem splitOnce_append_sep {c : Char} {a : List Char} (ha : c ∉ a) (rest : List Char) :
    splitOnce c (a ++ c :: rest) = (a, some rest) := by
  induction a with
  | nil => simp [splitOnce]
  | cons x xs ih =>
    have hx : x ≠ c := fun h => ha (h ▸ List.mem_cons_self x xs)
    have hxs : c ∉ xs := fun h => ha (List.mem_cons_of_mem x h)
    simp only [List.cons_append, splitOnce, hx, ite_false]
    rw [List.append_eq, ih hxs]

/-! ## Plan marshalling (`marshall_rebase_plan` / `unmarshall_rebase_plan`)

A plan is a pair of the last-revision info `(revno, revid)` and the replace
map `old id -> (new id, new parent list)`.  The replace map is embedded as
an association list in dict insertion order; marshalling iterates over it in
that order, unmarshalling rebuilds it in file order. -/

abbrev PlanId := List Char

abbrev PlanMap := List (PlanId × PlanId × List PlanId)

def planHeader : List Char := "# Bazaar rebase plan 1".data

def entryBody (e : PlanId × PlanId × List PlanId) : List Char :=
  e.1 ++ (spChar :: (e.2.1 ++ (e.2.2.map (fun p => spChar :: p)).flatten))

def entryLine (e : PlanId × PlanId × List PlanId) : List Char :=
  entryBody e ++ [nlChar]

def marshall_rebase_plan (lastRevInfo : Nat × PlanId) (replaceMap : PlanMap) : List Char :=
  planHeader ++ (nlChar :: (toDecimal lastRevInfo.1 ++
    (spChar :: (lastRevInfo.2 ++ (nlChar :: (replaceMap.map entryLine).flatten)))))

def parsePlanLine (m : PlanMap) (l : List Char) : Option PlanMap :=
  if l = [] then some m
  else
    match splitOnChar spChar l with
    | p0 :: p1 :: rest => some (insertA m p0 (p1, rest))
    | _ => none

def unmarshall_rebase_plan (text : List Char) : Option ((Nat × PlanId) × PlanMap) :=
  match splitOnChar nlChar text with
  | l0 :: l1 :: rest =>
    if l0 = planHeader then
      match splitOnce spChar l1 with
      | (p0, some p1) =>
        match parseDecimal p0 with
        | some n =>
          match rest.foldlM parsePlanLine [] with
          | some m => some ((n, p1), m)
          | none => none
        | none => none
      | (_, none) => none
    else none
  | _ => none

/-! ### Round-trip lemmas for marshalling -/

/-- Well-formedness of a revision id for the plan file format: it contains
neither a newline nor a space (the documented constraint on the identifier
alphabet). -/
def planIdOk (p : PlanId) : Prop := nlChar ∉ p ∧ spChar ∉ p

instance (p : PlanId) : Decidable (planIdOk p) := by unfold planIdOk; infer_instance

theorem lookupA_eq_none {α β : Type} [DecidableEq α] {l : List (α × β)} {k : α}
    (h : k ∉ l.map Prod.fst) : lookupA l k = none := by
  induction l with
  | nil => rfl
  | cons e es ih =>
    obtain ⟨k0, v0⟩ := e
    simp only [List.map_cons, List.mem_cons] at h
    push_neg at h
    simp only [lookupA]
    rw [if_neg (Ne.symm h.1)]
    exact ih h.2

theorem insertA_fresh {α β : Type} [DecidableEq α] {l : List (α × β)} {k : α} (v : β)
    (h : k ∉ l.map Prod.fst) : insertA l k v = l ++ [(k, v)] := by
  induction l with
  | nil => rfl
  | cons e es ih =>
    obtain ⟨k0, v0⟩ := e
    simp only [List.map_cons, List.mem_cons] at h
    push_neg at h
    simp only [insertA]
    rw [if_neg (Ne.symm h.1), ih h.2]
    rfl

theorem entryBody_ne_nil (e : PlanId × PlanId × List PlanId) : entryBody e ≠ [] := by
  unfold entryBody
  intro h
  rcases List.append_eq_nil.mp h with ⟨_, h2⟩
  exact List.cons_ne_nil _ _ h2

theorem entryBody_shape (e : PlanId × PlanId × List PlanId) :
    entryBody e = e.1 ++ (spChar :: (e.2.1 ++ (e.2.2.map (fun p => spChar :: p)).flatten)) :=
  rfl

theorem entryBody_not_nl {e : PlanId × PlanId × List PlanId}
    (h1 : nlChar ∉ e.1) (h2 : nlChar ∉ e.2.1) (h3 : ∀ p ∈ e.2.2, nlChar ∉ p) :
    nlChar ∉ entryBody e := by
  unfold entryBody
  intro h
  rcases List.mem_append.mp h with h' | h'
  · exact h1 h'
  · rcases List.mem_cons.mp h' with h'' | h''
    · exact absurd h''.symm (by decide)
    · rcases List.mem_append.mp h'' with h3' | h3'
      · exact h2 h3'
      · rcases List.mem_flatten.mp h3' with ⟨piece, hp, hcp⟩
        rcases List.mem_map.mp hp with ⟨p, hpm, hpe⟩
        subst hpe
        rcases List.mem_cons.mp hcp with hc | hc
        · exact absurd hc.symm (by decide)
        · exact h3 p hpm hc

theorem splitNl_flatten {m : PlanMap} (h : ∀ e ∈ m, nlChar ∉ entryBody e) :
    splitOnChar nlChar ((m.map entryLine).flatten) = m.map entryBody ++ [[]] := by
  induction m with
  | nil => simp [splitOnChar]
  | cons e es ih =>
    have hflat : ((e :: es).map entryLine).flatten =
        entryBody e ++ nlChar :: (es.map entryLine).flatten := by
      simp [entryLine, List.append_assoc]
    rw [hflat, splitOnChar_append_sep (h e (List.mem_cons_self e es)),
      ih (fun e' he' => h e' (List.mem_cons_of_mem e he'))]
    simp

theorem splitSp_parents {new : PlanId} {ps : List PlanId}
    (h : spChar ∉ new) (hp : ∀ p ∈ ps, spChar ∉ p) :
    splitOnChar spChar (new ++ (ps.map (fun p => spChar :: p)).flatten) = new :: ps := by
  induction ps generalizing new with
  | nil => simpa using splitOnChar_no_sep h
  | cons p ps ih =>
    have hshape : new ++ ((p :: ps).map (fun q => spChar :: q)).flatten =
        new ++ (spChar :: (p ++ (ps.map (fun q => spChar :: q)).flatten)) := by
      simp
    rw [hshape, splitOnChar_append_sep h,
      ih (hp p (List.mem_cons_self p ps)) (fun q hq => hp q (List.mem_cons_of_mem p hq))]

theorem splitSp_entryBody {e : PlanId × PlanId × List PlanId}
    (ho : spChar ∉ e.1) (hn : spChar ∉ e.2.1) (hp : ∀ p ∈ e.2.2, spChar ∉ p) :
    splitOnChar spChar (entryBody e) = e.1 :: e.2.1 :: e.2.2 := by
  unfold entryBody
  rw [splitOnChar_append_sep ho, splitSp_parents hn hp]

theorem parsePlanLine_entryBody {m0 : PlanMap} {e : PlanId × PlanId × List PlanId}
    (ho : spChar ∉ e.1) (hn : spChar ∉ e.2.1) (hp : ∀ p ∈ e.2.2, spChar ∉ p) :
    parsePlanLine m0 (entryBody e) = some (insertA m0 e.1 (e.2.1, e.2.2)) := by
  unfold parsePlanLine
  rw [if_neg (entryBody_ne_nil e), splitSp_entryBody ho hn hp]

/-- Well-formedness of one replace-map entry for marshalling. -/
def entryOk (e : PlanId × PlanId × List PlanId) : Prop :=
  planIdOk e.1 ∧ planIdOk e.2.1 ∧ ∀ p ∈ e.2.2, planIdOk p

instance (e : PlanId × PlanId × List PlanId) : Decidable (entryOk e) := by
  unfold entryOk; infer_instance

theorem foldlM_parse_entries :
    ∀ (m m0 : PlanMap), (∀ e ∈ m, entryOk e) →
      (∀ e ∈ m, e.1 ∉ m0.map Prod.fst) → (m.map Prod.fst).Nodup →
      List.foldlM parsePlanLine m0 (m.map entryBody) = some (m0 ++ m) := by
  intro m
  induction m with
  | nil => intro m0 _ _ _; simp [List.foldlM]
  | cons e es ih =>
    intro m0 hwf hfresh hnodup
    have hwfe := hwf e (List.mem_cons_self e es)
    have hstep : parsePlanLine m0 (entryBody e) = some (m0 ++ [(e.1, e.2.1, e.2.2)]) := by
      rw [parsePlanLine_entryBody hwfe.1.2 hwfe.2.1.2 (fun p hp => (hwfe.2.2 p hp).2),
        insertA_fresh _ (hfresh e (List.mem_cons_self e es))]
    have hee : (e.1, e.2.1, e.2.2) = e := rfl
    rw [hee] at hstep
    simp only [List.map_cons, List.foldlM_cons, hstep, Option.bind_eq_bind, Option.some_bind]
    simp only [List.map_cons, List.nodup_cons] at hnodup
    rw [ih (m0 ++ [e]) (fun e' he' => hwf e' (List.mem_cons_of_mem e he'))
      (fun e' he' => by
        simp only [List.map_append, List.mem_append, List.map_cons]
        push_neg
        refine ⟨hfresh e' (List.mem_cons_of_mem e he'), ?_⟩
        intro hmem
        simp only [List.map_nil, List.mem_singleton] at hmem
        exact absurd (hmem ▸ List.mem_map_of_mem Prod.fst he') hnodup.1)
      hnodup.2]
    simp

/-- **Claim C3.** Marshalling then unmarshalling a well-formed rebase plan is
the identity: for every last-revision info `(n, lastid)` and replace map whose
revision ids contain no space and no newline (and whose keys are distinct, as
in a Python dict), `unmarshall_rebase_plan (marshall_rebase_plan x) = some x`,
including entries with zero parents. -/
theorem marshall_unmarshall_roundtrip (info : Nat × PlanId) (m : PlanMap)
    (hlast : planIdOk info.2) (hwf : ∀ e ∈ m, entryOk e)
    (hkeys : (m.map Prod.fst).Nodup) :
    unmarshall_rebase_plan (marshall_rebase_plan info m) = some (info, m) := by
  have hbodynl : ∀ e ∈ m, nlChar ∉ entryBody e := fun e he =>
    entryBody_not_nl (hwf e he).1.1 (hwf e he).2.1.1 (fun p hp => ((hwf e he).2.2 p hp).1)
  have hline1 : nlChar ∉ toDecimal info.1 ++ spChar :: info.2 := by
    intro h
    rcases List.mem_append.mp h with h' | h'
    · exact toDecimal_not_nl h'
    · rcases List.mem_cons.mp h' with h'' | h''
      · exact absurd h''.symm (by decide)
      · exact hlast.1 h''
  have hline1eq : nlChar ∉ toDecimal info.1 ++ (spChar :: info.2) := by
    simpa using hline1
  have hsplit : splitOnChar nlChar (marshall_rebase_plan info m) =
      planHeader :: (toDecimal info.1 ++ (spChar :: info.2)) ::
        (m.map entryBody ++ [[]]) := by
    unfold marshall_rebase_plan
    rw [splitOnChar_append_sep (show nlChar ∉ planHeader by decide)]
    have hshape : toDecimal info.1 ++
        (spChar :: (info.2 ++ (nlChar :: (m.map entryLine).flatten))) =
        (toDecimal info.1 ++ (spChar :: info.2)) ++ (nlChar :: (m.map entryLine).flatten) := by
      simp [List.append_assoc]
    rw [hshape, splitOnChar_append_sep hline1eq, splitNl_flatten hbodynl]
  have hfold : List.foldlM parsePlanLine ([] : PlanMap) (m.map entryBody ++ [[]]) = some m := by
    rw [List.foldlM_append, foldlM_parse_entries m [] hwf (by simp) hkeys]
    simp [parsePlanLine, List.foldlM]
  unfold unmarshall_rebase_plan
  rw [hsplit]
  simp [splitOnce_append_sep toDecimal_not_sp, parseDecimal_toDecimal, hfold]

/-- Witness for C3 at a concrete plan with a zero-parent entry and a
two-parent entry. -/
theorem marshall_unmarshall_roundtrip_witness :
    unmarshall_rebase_plan (marshall_rebase_plan (4, "lastrev".data)
        [("oldA".data, "newA".data, []),
         ("oldB".data, "newB".data, ["newA".data, "m1".data])]) =
      some ((4, "lastrev".data),
        [("oldA".data, "newA".data, []),
         ("oldB".data, "newB".data, ["newA".data, "m1".data])]) :=
  marshall_unmarshall_roundtrip (4, "lastrev".data) _ (by decide) (by decide) (by decide)

/-! ## The simple linear plan generator (`generate_simple_plan`)

Revision ids are opaque strings from here on.  `pyGet l i` embeds Python's
`l[i]` with negative-index wrap-around, `pySlice l a b` embeds `l[a:b]`
(for the non-negative bounds the generator computes).  The in-loop
`assert`s and the `parents[0] = new_parent` store into a possibly empty
list are embedded as `Option` failures. -/

abbrev RevId := String

abbrev RMap := List (RevId × RevId × List RevId)

def pyGet {α : Type} (l : List α) (i : Int) : Option α :=
  if i < 0 then
    if (-i).toNat ≤ l.length then l.get? (l.length - (-i).toNat) else none
  else l.get? i.toNat

def pySlice {α : Type} (l : List α) (a b : Option Nat) : List α :=
  (match b with
   | some n => l.take n
   | none => l).drop (match a with | some n => n | none => 0)

/-- The slice `history[start_revno:stop_revno]` computed by
`generate_simple_plan` — note the `+ 1`: the stop revision is included. -/
def simpleSlice (history : List RevId) (start_revid stop_revid : Option RevId) : List RevId :=
  pySlice history (start_revid.map (fun s => history.indexOf s))
    (stop_revid.map (fun s => history.indexOf s + 1))

/-- The `for oldrevid in history[start_revno:stop_revno]` loop of
`generate_simple_plan`, threading the running `new_parent` cursor. -/
def simpleLoop (history : List RevId) (onto_revid : RevId) (onto_ancestry : List RevId)
    (get_parents : RevId → List RevId) (generate_revid : RevId → RevId) :
    List RevId → RevId → Option RMap
  | [], _ => some []
  | oldrevid :: rest, new_parent =>
    let parents := get_parents oldrevid
    if parents = [] ∨ parents.head? = pyGet history ((history.indexOf oldrevid : Int) - 1) then
      match parents with
      | [] => none
      | _ :: ptail =>
        let parents2 := (new_parent :: ptail).filter
          (fun p => decide (p ∉ onto_ancestry ∨ p = onto_revid))
        let newrevid := generate_revid oldrevid
        if newrevid = oldrevid then none
        else
          match simpleLoop history onto_revid onto_ancestry get_parents generate_revid
              rest newrevid with
          | some m => some ((oldrevid, newrevid, parents2) :: m)
          | none => none
    else none

def generate_simple_plan (history : List RevId) (start_revid stop_revid : Option RevId)
    (onto_revid : RevId) (onto_ancestry : List RevId)
    (get_parents : RevId → List RevId) (generate_revid : RevId → RevId) : Option RMap :=
  if (match start_revid with | some s => decide (s ∈ history) | none => true) &&
     (match stop_revid with | some s => decide (s ∈ history) | none => true) then
    simpleLoop history onto_revid onto_ancestry get_parents generate_revid
      (simpleSlice history start_revid stop_revid) onto_revid
  else none

/-! ### Properties of `generate_simple_plan` -/

theorem filter_cons_of_keep {np : RevId} {t : List RevId} {onto : RevId} {anc : List RevId}
    (h : np ∉ anc ∨ np = onto) :
    (np :: t).filter (fun p => decide (p ∉ anc ∨ p = onto)) =
      np :: t.filter (fun p => decide (p ∉ anc ∨ p = onto)) := by
  rw [List.filter_cons_of_pos]
  exact decide_eq_true h

/-- Master lemma for the simple-plan loop: under the loop's own `assert`
preconditions and a fresh id generator, the loop succeeds and produces the
linear chain described by the spec. -/
theorem simpleLoop_spec (history : List RevId) (onto : RevId) (anc : List RevId)
    (gp : RevId → List RevId) (g : RevId → RevId) :
    ∀ (slice : List RevId) (np : RevId), (np ∉ anc ∨ np = onto) →
      (∀ r ∈ slice, gp r ≠ [] ∧
        (gp r).head? = pyGet history ((history.indexOf r : Int) - 1)) →
      (∀ r ∈ slice, g r ≠ r ∧ g r ∉ anc) →
      ∃ M, simpleLoop history onto anc gp g slice np = some M ∧
        M.map Prod.fst = slice ∧
        M.map (fun e => e.2.1) = slice.map g ∧
        (∀ e ∈ M, e.2.1 = g e.1) ∧
        M.map (fun e => e.2.2.head?) = ((np :: slice.map g).take slice.length).map some := by
  intro slice
  induction slice with
  | nil =>
    intro np _ _ _
    exact ⟨[], rfl, rfl, rfl, by simp, rfl⟩
  | cons x xs ih =>
    intro np hnp hpar hg
    have hx := hpar x (List.mem_cons_self x xs)
    have hgx := hg x (List.mem_cons_self x xs)
    rcases ih (g x) (Or.inl hgx.2)
      (fun r hr => hpar r (List.mem_cons_of_mem x hr))
      (fun r hr => hg r (List.mem_cons_of_mem x hr)) with ⟨M', hM', hfst, hnew, hval, hhead⟩
    cases hgp : gp x with
    | nil => exact absurd hgp hx.1
    | cons p pt =>
      refine ⟨(x, g x, (np :: pt).filter (fun q => decide (q ∉ anc ∨ q = onto))) :: M',
        ?_, ?_, ?_, ?_, ?_⟩
      · simp only [simpleLoop, hgp]
        rw [if_pos (Or.inr (by rw [← hgp]; exact hx.2)), if_neg hgx.1, hM']
      · simp [hfst]
      · simp [hnew]
      · intro e he
        rcases List.mem_cons.mp he with he' | he'
        · rw [he']
        · exact hval e he'
      · simp only [List.map_cons, hhead, filter_cons_of_keep hnp]
        simp [List.take_cons]

/-- **Claim C4.** For every slice accepted by `generate_simple_plan`
(its `assert`s hold: first parents point at the predecessor in `history`)
and every fresh injective id generator, the produced map chains linearly:
the k-th entry's first new parent is the (k-1)-th generated id, the first
entry's first new parent is `onto_revid`, each generated id differs from its
original, and all generated ids are pairwise distinct. -/
theorem generate_simple_plan_chains (history : List RevId) (start stop : Option RevId)
    (onto : RevId) (anc : List RevId) (gp : RevId → List RevId) (g : RevId → RevId)
    (hstart : ∀ s, start = some s → s ∈ history)
    (hstop : ∀ s, stop = some s → s ∈ history)
    (hpar : ∀ r ∈ simpleSlice history start stop, gp r ≠ [] ∧
      (gp r).head? = pyGet history ((history.indexOf r : Int) - 1))
    (hg : ∀ r ∈ simpleSlice history start stop, g r ≠ r ∧ g r ∉ anc)
    (hinj : ∀ r ∈ simpleSlice history start stop, ∀ q ∈ simpleSlice history start stop,
      g r = g q → r = q)
    (hnd : (simpleSlice history start stop).Nodup) :
    ∃ M, generate_simple_plan history start stop onto anc gp g = some M ∧
      M.map Prod.fst = simpleSlice history start stop ∧
      M.map (fun e => e.2.2.head?) =
        ((onto :: (simpleSlice history start stop).map g).take
          (simpleSlice history start stop).length).map some ∧
      (∀ e ∈ M, e.2.1 = g e.1 ∧ e.2.1 ≠ e.1) ∧
      (M.map (fun e => e.2.1)).Nodup := by
  rcases simpleLoop_spec history onto anc gp g (simpleSlice history start stop) onto
    (Or.inr rfl) hpar hg with ⟨M, hM, hfst, hnewids, hval, hheads⟩
  refine ⟨M, ?_, hfst, hheads, ?_, ?_⟩
  · unfold generate_simple_plan
    rw [if_pos, hM]
    cases hs : start with
    | none => cases ht : stop with
      | none => rfl
      | some t => simp [decide_eq_true (hstop t ht)]
    | some s => cases ht : stop with
      | none => simp [decide_eq_true (hstart s hs)]
      | some t => simp [decide_eq_true (hstart s hs), decide_eq_true (hstop t ht)]
  · intro e he
    have hmem : e.1 ∈ simpleSlice history start stop := by
      rw [← hfst]; exact List.mem_map_of_mem Prod.fst he
    exact ⟨hval e he, (hval e he) ▸ (hg e.1 hmem).1⟩
  · rw [hnewids]
    exact List.Nodup.map_on hinj hnd

/-- Witness for C4: the spec's `[A, B, C, D]` onto `Z` example, with the base
revision present in `history` so that the in-loop asserts hold. -/
theorem generate_simple_plan_chains_witness :
    ∃ M, generate_simple_plan ["base", "A", "B", "C", "D"] (some "A") (some "D") "Z"
        ["Z", "base"]
        (fun r => if r = "A" then ["base"] else if r = "B" then ["A"]
          else if r = "C" then ["B"] else if r = "D" then ["C"] else [])
        (fun r => r ++ "2") = some M ∧
      M.map Prod.fst = simpleSlice ["base", "A", "B", "C", "D"] (some "A") (some "D") ∧
      M.map (fun e => e.2.2.head?) =
        (("Z" :: (simpleSlice ["base", "A", "B", "C", "D"] (some "A") (some "D")).map
          (fun r => r ++ "2")).take
          (simpleSlice ["base", "A", "B", "C", "D"] (some "A") (some "D")).length).map some ∧
      (∀ e ∈ M, e.2.1 = e.1 ++ "2" ∧ e.2.1 ≠ e.1) ∧
      (M.map (fun e => e.2.1)).Nodup :=
  generate_simple_plan_chains ["base", "A", "B", "C", "D"] (some "A") (some "D") "Z"
    ["Z", "base"] _ _
    (fun s hs => by cases hs; decide)
    (fun s hs => by cases hs; decide)
    (by decide) (by decide) (by decide) (by decide)

theorem take_succ_drop_self {α : Type} (l : List α) (i : Nat) (h : i < l.length) :
    (l.take (i + 1)).drop i = [l.get ⟨i, h⟩] := by
  rw [List.take_succ]
  have hx : l[i]?.toList = [l.get ⟨i, h⟩] := by simp [List.getElem?_eq_getElem h]
  rw [hx]
  have hlen : (l.take i).length = i := by rw [List.length_take]; omega
  calc (l.take i ++ [l.get ⟨i, h⟩]).drop i
      = (l.take i ++ [l.get ⟨i, h⟩]).drop (l.take i).length := by rw [hlen]
    _ = [l.get ⟨i, h⟩] := List.drop_left _ _

/-- Counterexample to C7 as stated: with `start = stop = "A"` the produced
map is the singleton `{A}` — the stop revision is included as a key and the
map is not empty (the slice is `history[index(start) : index(stop)+1]`). -/
theorem generate_simple_plan_stop_included_cex :
    generate_simple_plan ["Z", "A"] (some "A") (some "A") "O" ["O"]
        (fun r => if r = "A" then ["Z"] else []) (fun r => r ++ "2") =
      some [("A", "A2", ["O"])] ∧
    "A" ∈ ([("A", "A2", ["O"])] : RMap).map Prod.fst := by
  exact ⟨by decide, by decide⟩

/-- **Claim C7 (amended).** With `start_revid` and `stop_revid` both in
`history`, `generate_simple_plan` rewrites exactly the closed slice
`[start, stop]` of `history` — `stop_revid` itself is included among the
produced map's keys — and `start = stop` yields the singleton map for that
one revision (the empty map arises only when `start` is the immediate
successor of `stop`). -/
theorem generate_simple_plan_slice_closed (history : List RevId) (s t : RevId)
    (onto : RevId) (anc : List RevId) (gp : RevId → List RevId) (g : RevId → RevId)
    (hs : s ∈ history) (ht : t ∈ history)
    (hpar : ∀ r ∈ simpleSlice history (some s) (some t), gp r ≠ [] ∧
      (gp r).head? = pyGet history ((history.indexOf r : Int) - 1))
    (hg : ∀ r ∈ simpleSlice history (some s) (some t), g r ≠ r ∧ g r ∉ anc) :
    ∃ M, generate_simple_plan history (some s) (some t) onto anc gp g = some M ∧
      M.map Prod.fst = (history.take (history.indexOf t + 1)).drop (history.indexOf s) ∧
      (s = t → M.map Prod.fst = [s]) := by
  rcases simpleLoop_spec history onto anc gp g (simpleSlice history (some s) (some t)) onto
    (Or.inr rfl) hpar hg with ⟨M, hM, hfst, _, _, _⟩
  refine ⟨M, ?_, hfst, ?_⟩
  · unfold generate_simple_plan
    rw [if_pos, hM]
    simp [decide_eq_true hs, decide_eq_true ht]
  · intro hst
    subst hst
    have hlt : history.indexOf s < history.length := List.indexOf_lt_length.mpr hs
    rw [hfst]
    show (history.take (history.indexOf s + 1)).drop (history.indexOf s) = [s]
    rw [take_succ_drop_self history (history.indexOf s) hlt, List.indexOf_get hlt]

/-- Witness for the amended C7 at `start = stop`. -/
theorem generate_simple_plan_slice_closed_witness :
    ∃ M, generate_simple_plan ["Z", "A"] (some "A") (some "A") "O" ["O"]
        (fun r => if r = "A" then ["Z"] else []) (fun r => r ++ "2") = some M ∧
      M.map Prod.fst = ((["Z", "A"] : List RevId).take ((["Z", "A"] : List RevId).indexOf "A" + 1)).drop
        ((["Z", "A"] : List RevId).indexOf "A") ∧
      ("A" = "A" → M.map Prod.fst = ["A"]) :=
  generate_simple_plan_slice_closed ["Z", "A"] "A" "A" "O" ["O"] _ _
    (by decide) (by decide) (by decide) (by decide)

/-- **Claim C8 (code evaluated at the failing configuration).**
`generate_simple_plan` as defined in `rebase.py` takes no
`skipAlreadyMerged` parameter: the caller in `__init__.py` passes
`not always_rebase_merges` as an eighth argument, which the
seven-parameter function cannot accept, and the function itself always
filters.  Concretely, the non-first parent `M`, which lies in the target
ancestry and differs from the target head `O`, is dropped unconditionally —
there is no input that disables the filter. -/
theorem generate_simple_plan_filter_unconditional :
    generate_simple_plan ["X", "A", "B"] (some "A") (some "B") "O" ["O", "M"]
        (fun r => if r = "A" then ["X"] else if r = "B" then ["A", "M"] else [])
        (fun r => r ++ "2") =
      some [("A", "A2", ["O"]), ("B", "B2", ["A2"])] := by
  decide

theorem simpleLoop_none_of_root (history : List RevId) (onto : RevId) (anc : List RevId)
    (gp : RevId → List RevId) (g : RevId → RevId) :
    ∀ (slice : List RevId) (np r : RevId), r ∈ slice → gp r = [] →
      simpleLoop history onto anc gp g slice np = none := by
  intro slice
  induction slice with
  | nil => intro np r hr _; exact absurd hr (List.not_mem_nil r)
  | cons x xs ih =>
    intro np r hr hroot
    rcases List.mem_cons.mp hr with he | hm
    · subst he
      simp [simpleLoop, hroot]
    · simp only [simpleLoop]
      split
      · cases hgp : gp x with
        | nil => rfl
        | cons p pt =>
          simp only
          split
          · rfl
          · rw [ih (g x) r hm hroot]
      · rfl

/-- **Claim C10.** `generate_simple_plan` is only total when every revision
in the selected slice has at least one parent: if any revision `r` of the
slice has `get_parents r = []` (a root revision), the unguarded
`parents[0] = new_parent` store is out of bounds and the function fails
(returns `none`) instead of producing a map. -/
theorem generate_simple_plan_root_in_slice_fails (history : List RevId)
    (start stop : Option RevId) (onto : RevId) (anc : List RevId)
    (gp : RevId → List RevId) (g : RevId → RevId) (r : RevId)
    (hr : r ∈ simpleSlice history start stop) (hroot : gp r = []) :
    generate_simple_plan history start stop onto anc gp g = none := by
  unfold generate_simple_plan
  split
  · exact simpleLoop_none_of_root history onto anc gp g _ onto r hr hroot
  · rfl

/-- Witness for C10: a two-element history whose first slice element is a
root revision makes the generator fail. -/
theorem generate_simple_plan_root_in_slice_fails_witness :
    generate_simple_plan ["R", "B"] none none "O" ["O"]
        (fun _ => []) (fun s => s ++ "2") = none :=
  generate_simple_plan_root_in_slice_fails ["R", "B"] none none "O" ["O"]
    (fun _ => []) (fun s => s ++ "2") "R" (by decide) rfl

/-! ## The rebase executor (`rebase_todo` / `rebase`)

The repository is embedded as the list of revision ids it contains
(`has_revision` is membership).  The injected `replay_fn` is embedded as a
boolean predicate deciding success (a `False` result is the conflict
exception); on success the repository gains exactly the new revision id,
which is the post-condition the executor itself asserts
(`assert repository.has_revision(newrevid)` plus the parents check).  Each
call of `replay_fn` is recorded as an `Invocation`, together with the
repository contents at call time; a conflict ends the run with the failing
invocation in `conflict`.  The worklist loop gets fuel
`|todo| + Σ |dependency lists| + 1`, which is proved sufficient. -/

structure Invocation where
  old : RevId
  new : RevId
  parents : List RevId
  repoBefore : List RevId
  deriving DecidableEq, Repr

structure RebaseResult where
  repo : List RevId
  trace : List Invocation
  conflict : Option Invocation
  deriving DecidableEq, Repr

/-- `rebase_todo`: the keys of the replace map whose new revision id is not
yet in the repository, in map order. -/
def rebase_todo (repo : List RevId) (replace_map : RMap) : List RevId :=
  (replace_map.filter (fun e => !(repo.contains e.2.1))).map Prod.fst

/-- `dependencies.setdefault(p, []).append(revid)` on an insertion-ordered
dict of lists. -/
def addDep (deps : List (RevId × List RevId)) (k : RevId) (v : RevId) :
    List (RevId × List RevId) :=
  match deps with
  | [] => [(k, [v])]
  | (k0, vs) :: rest => if k0 = k then (k0, vs ++ [v]) :: rest else (k0, vs) :: addDep rest k v

/-- The dependency index built up front by `rebase`: for each todo item, each
of its new parents that is not yet in the repository maps to the items
blocked on it. -/
def buildDependencies (repo : List RevId) (replace_map : RMap) (todo : List RevId) :
    List (RevId × List RevId) :=
  todo.foldl (fun deps revid =>
    match lookupA replace_map revid with
    | some e => e.2.foldl
        (fun deps p => if repo.contains p then deps else addDep deps p revid) deps
    | none => deps) []

def depsSum (deps : List (RevId × List RevId)) : Nat :=
  (deps.map (fun e => e.2.length)).sum

/-- The `while len(todo) > 0` loop of `rebase`.  `todo.pop()` takes the last
element; an item whose new parents are not all present is dropped (it is
re-added through the dependency index when its missing parent appears); an
item whose new id already exists is skipped; otherwise `replay_fn` runs, and
on success the items waiting on the new id are appended to `todo`.  The
`lookupA replace_map revid = none` branch is unreachable from `rebase`
(todo items are always map keys) and merely skips. -/
def rebaseLoop (replay : List RevId → RevId → RevId → List RevId → Bool)
    (replace_map : RMap) :
    Nat → List RevId → List (RevId × List RevId) → List RevId → List Invocation →
      Option RebaseResult
  | 0, todo, _, repo, trace =>
    match todo with
    | [] => some ⟨repo, trace, none⟩
    | _ => none
  | fuel + 1, todo, deps, repo, trace =>
    match todo.getLast? with
    | none => some ⟨repo, trace, none⟩
    | some revid =>
      match lookupA replace_map revid with
      | none => rebaseLoop replay replace_map fuel todo.dropLast deps repo trace
      | some (newrevid, newparents) =>
        if newparents.filter (fun p => repo.contains p) ≠ newparents then
          rebaseLoop replay replace_map fuel todo.dropLast deps repo trace
        else if repo.contains newrevid then
          rebaseLoop replay replace_map fuel todo.dropLast deps repo trace
        else if replay repo revid newrevid newparents then
          match lookupA deps newrevid with
          | some ds =>
            rebaseLoop replay replace_map fuel (todo.dropLast ++ ds) (eraseA deps newrevid)
              (newrevid :: repo) (trace ++ [⟨revid, newrevid, newparents, repo⟩])
          | none =>
            rebaseLoop replay replace_map fuel todo.dropLast deps (newrevid :: repo)
              (trace ++ [⟨revid, newrevid, newparents, repo⟩])
        else some ⟨repo, trace, some ⟨revid, newrevid, newparents, repo⟩⟩

def rebase (repo : List RevId) (replace_map : RMap)
    (replay : List RevId → RevId → RevId → List RevId → Bool) : RebaseResult :=
  match rebaseLoop replay replace_map
      ((rebase_todo repo replace_map).length +
        depsSum (buildDependencies repo replace_map (rebase_todo repo replace_map)) + 1)
      (rebase_todo repo replace_map)
      (buildDependencies repo replace_map (rebase_todo repo replace_map)) repo [] with
  | some r => r
  | none => ⟨repo, [], none⟩

/-! ## The `rebase` command's plan-file handling

`cmd_rebase.run` writes the marshalled plan to the `rebase-plan` file,
executes the plan, and removes the plan (writes the empty string) only when
`rebase` returns without a conflict; a `ConflictsInTree` escape leaves the
file untouched.  The pair returned is (plan-file contents afterwards,
executor result). -/

def marshallS (info : Nat × RevId) (m : RMap) : List Char :=
  marshall_rebase_plan (info.1, info.2.data)
    (m.map (fun e => (e.1.data, e.2.1.data, e.2.2.map String.data)))

def cmd_rebase_run (info : Nat × RevId) (m : RMap) (repo : List RevId)
    (replay : List RevId → RevId → RevId → List RevId → Bool) :
    List Char × RebaseResult :=
  let res := rebase repo m replay
  match res.conflict with
  | some _ => (marshallS info m, res)
  | none => ([], res)

/-! ### Fuel sufficiency for the executor loop

Every iteration strictly decreases `|todo| + Σ |dependency lists|`: a pop
removes one todo item, and the only extension re-adds exactly the dependency
list that is simultaneously removed from the index. -/

theorem depsSum_eraseA {deps : List (RevId × List RevId)} {k : RevId} {ds : List RevId}
    (h : lookupA deps k = some ds) :
    depsSum deps = depsSum (eraseA deps k) + ds.length := by
  induction deps with
  | nil => simp [lookupA] at h
  | cons e rest ih =>
    obtain ⟨k0, vs⟩ := e
    by_cases hk : k0 = k
    · rw [lookupA_cons, if_pos hk] at h
      have hvs : vs = ds := Option.some.inj h
      subst hvs
      simp [eraseA, hk, depsSum]
      omega
    · rw [lookupA_cons, if_neg hk] at h
      simp only [eraseA, if_neg hk]
      have := ih h
      simp only [depsSum, List.map_cons, List.sum_cons] at *
      omega

theorem length_dropLast_of_getLast? {α : Type} {l : List α} {a : α}
    (h : l.getLast? = some a) : l.dropLast.length + 1 = l.length := by
  cases l with
  | nil => simp [List.getLast?] at h
  | cons x xs => simp [List.length_dropLast]

theorem rebaseLoop_isSome (replay : List RevId → RevId → RevId → List RevId → Bool)
    (m : RMap) :
    ∀ (fuel : Nat) (todo : List RevId) (deps : List (RevId × List RevId))
      (repo : List RevId) (trace : List Invocation),
      todo.length + depsSum deps < fuel →
      (rebaseLoop replay m fuel todo deps repo trace).isSome := by
  intro fuel
  induction fuel with
  | zero => intro todo deps repo trace h; omega
  | succ fuel ih =>
    intro todo deps repo trace h
    simp only [rebaseLoop]
    split
    · simp
    · next revid hlast =>
      have hlen := length_dropLast_of_getLast? hlast
      split
      · exact ih _ _ _ _ (by omega)
      · next newrevid newparents hlook =>
        by_cases h1 : newparents.filter (fun p => repo.contains p) ≠ newparents
        · rw [if_pos h1]; exact ih _ _ _ _ (by omega)
        · rw [if_neg h1]
          by_cases h2 : repo.contains newrevid = true
          · rw [if_pos h2]; exact ih _ _ _ _ (by omega)
          · rw [if_neg h2]
            by_cases h3 : replay repo revid newrevid newparents = true
            · rw [if_pos h3]
              cases hld : lookupA deps newrevid with
              | some ds =>
                have herase := depsSum_eraseA hld
                refine ih _ _ _ _ ?_
                rw [List.length_append]
                omega
              | none => exact ih _ _ _ _ (by omega)
            · rw [if_neg h3]; simp

theorem rebase_eq_loop (repo : List RevId) (m : RMap)
    (replay : List RevId → RevId → RevId → List RevId → Bool) :
    rebaseLoop replay m
      ((rebase_todo repo m).length +
        depsSum (buildDependencies repo m (rebase_todo repo m)) + 1)
      (rebase_todo repo m) (buildDependencies repo m (rebase_todo repo m)) repo [] =
      some (rebase repo m replay) := by
  have hs := rebaseLoop_isSome replay m
    ((rebase_todo repo m).length +
      depsSum (buildDependencies repo m (rebase_todo repo m)) + 1)
    (rebase_todo repo m) (buildDependencies repo m (rebase_todo repo m)) repo []
    (by omega)
  unfold rebase
  cases h : rebaseLoop replay m
      ((rebase_todo repo m).length +
        depsSum (buildDependencies repo m (rebase_todo repo m)) + 1)
      (rebase_todo repo m) (buildDependencies repo m (rebase_todo repo m)) repo [] with
  | some r => rfl
  | none => rw [h] at hs; simp at hs

/-- **Claim C6.** If every entry's new revision id already exists in the
repository (the state after a fully successful first `rebase` call), a
second `rebase` call with the same replace map performs zero `replay_fn`
invocations: the todo list is empty, the trace is empty and there is no
conflict. -/
theorem rebase_second_call_no_replays (repo0 : List RevId) (m : RMap)
    (replay : List RevId → RevId → RevId → List RevId → Bool)
    (h : ∀ e ∈ m, e.2.1 ∈ repo0) :
    (rebase repo0 m replay).trace = [] ∧ (rebase repo0 m replay).conflict = none := by
  have htodo : rebase_todo repo0 m = [] := by
    unfold rebase_todo
    rw [List.filter_eq_nil_iff.mpr]
    · rfl
    · intro e he
      simp [List.elem_iff, h e he]
  have hres : rebase repo0 m replay = ⟨repo0, [], none⟩ := by
    unfold rebase
    rw [htodo]
    rfl
  rw [hres]
  exact ⟨rfl, rfl⟩

/-- Witness for C6: after the successful first call the repository holds
`An`, `Bn`, `Cn`; the second call has an empty trace and no conflict. -/
theorem rebase_second_call_no_replays_witness :
    (rebase ["O", "An", "Bn", "Cn"]
        [("A", ("An", ["O"])), ("B", ("Bn", ["An"])), ("C", ("Cn", ["Bn"]))]
        (fun _ _ _ _ => true)).trace = [] ∧
    (rebase ["O", "An", "Bn", "Cn"]
        [("A", ("An", ["O"])), ("B", ("Bn", ["An"])), ("C", ("Cn", ["Bn"]))]
        (fun _ _ _ _ => true)).conflict = none :=
  rebase_second_call_no_replays ["O", "An", "Bn", "Cn"] _ _ (by decide)

/-- **Claim C5.** When `replay_fn` raises a conflict, the exception
propagates out of `rebase` (the run ends with that invocation recorded as
the conflict and nothing after it), and the `rebase` command leaves the plan
file byte-for-byte unchanged on disk, with all its original entries; in the
concrete three-entry scenario where the second todo item conflicts, exactly
one item has been replayed when the error propagates. -/
theorem rebase_conflict_halts :
    (∀ (info : Nat × RevId) (m : RMap) (repo : List RevId)
        (replay : List RevId → RevId → RevId → List RevId → Bool) (c : Invocation),
      (rebase repo m replay).conflict = some c →
      (cmd_rebase_run info m repo replay).1 = marshallS info m ∧
      (cmd_rebase_run info m repo replay).2 = rebase repo m replay) ∧
    ((rebase ["O"] [("A", ("An", ["O"])), ("B", ("Bn", ["An"])), ("C", ("Cn", ["Bn"]))]
        (fun _ old _ _ => old != "B")).trace.length = 1 ∧
     (rebase ["O"] [("A", ("An", ["O"])), ("B", ("Bn", ["An"])), ("C", ("Cn", ["Bn"]))]
        (fun _ old _ _ => old != "B")).conflict =
       some ⟨"B", "Bn", ["An"], ["An", "O"]⟩ ∧
     (cmd_rebase_run (1, "O")
        [("A", ("An", ["O"])), ("B", ("Bn", ["An"])), ("C", ("Cn", ["Bn"]))] ["O"]
        (fun _ old _ _ => old != "B")).1 =
       marshallS (1, "O")
         [("A", ("An", ["O"])), ("B", ("Bn", ["An"])), ("C", ("Cn", ["Bn"]))]) := by
  constructor
  · intro info m repo replay c hc
    simp [cmd_rebase_run, hc]
  · exact ⟨by decide, by decide, by decide⟩

/-- Witness for C5: in the three-entry scenario the hypothesis (a conflict
is reported) holds and the plan file is unchanged. -/
theorem rebase_conflict_halts_witness :
    (cmd_rebase_run (1, "O")
        [("A", ("An", ["O"])), ("B", ("Bn", ["An"])), ("C", ("Cn", ["Bn"]))] ["O"]
        (fun _ old _ _ => old != "B")).1 =
      marshallS (1, "O")
        [("A", ("An", ["O"])), ("B", ("Bn", ["An"])), ("C", ("Cn", ["Bn"]))] :=
  (rebase_conflict_halts.1 (1, "O")
    [("A", ("An", ["O"])), ("B", ("Bn", ["An"])), ("C", ("Cn", ["Bn"]))] ["O"]
    (fun _ old _ _ => old != "B") ⟨"B", "Bn", ["An"], ["An", "O"]⟩ (by decide)).1

/-! ### Trace invariants of the executor loop

`TraceSpec m repo trace res` records everything claim C1 needs about a loop
run that started with repository `repo` and already-recorded trace `trace`:
the new invocations extend the trace; the final repository is the initial
one plus exactly the new ids of the new invocations; every invocation comes
from the replace map and saw all its new parents present; each invocation's
repository snapshot consists of the initial repository plus the new ids of
the strictly earlier invocations; and the conflict invocation, if any,
satisfies the same properties at the end of the trace. -/

def TraceSpec (m : RMap) (repo : List RevId) (trace : List Invocation)
    (res : RebaseResult) : Prop :=
  ∃ tnew,
    res.trace = trace ++ tnew ∧
    (∀ x, x ∈ res.repo ↔ x ∈ repo ∨ ∃ inv ∈ tnew, inv.new = x) ∧
    (∀ inv ∈ tnew, lookupA m inv.old = some (inv.new, inv.parents) ∧
      ∀ p ∈ inv.parents, p ∈ inv.repoBefore) ∧
    (∀ k inv, tnew.get? k = some inv → ∀ x,
      x ∈ inv.repoBefore ↔
        x ∈ repo ∨ ∃ j, j < k ∧ ∃ invj, tnew.get? j = some invj ∧ invj.new = x) ∧
    (∀ c, res.conflict = some c →
      lookupA m c.old = some (c.new, c.parents) ∧
      (∀ p ∈ c.parents, p ∈ c.repoBefore) ∧
      ∀ x, x ∈ c.repoBefore ↔ x ∈ repo ∨ ∃ inv ∈ tnew, inv.new = x)

theorem TraceSpec_done (m : RMap) (repo : List RevId) (trace : List Invocation) :
    TraceSpec m repo trace ⟨repo, trace, none⟩ := by
  refine ⟨[], by simp, by simp, by simp, ?_, by simp⟩
  intro k inv hk
  simp at hk

theorem TraceSpec_conflict (m : RMap) (repo : List RevId) (trace : List Invocation)
    {revid newrevid : RevId} {newparents : List RevId}
    (hlook : lookupA m revid = some (newrevid, newparents))
    (hpar : ∀ p ∈ newparents, p ∈ repo) :
    TraceSpec m repo trace ⟨repo, trace, some ⟨revid, newrevid, newparents, repo⟩⟩ := by
  refine ⟨[], by simp, by simp, by simp, ?_, ?_⟩
  · intro k inv hk
    simp at hk
  · intro c hc
    obtain rfl : (⟨revid, newrevid, newparents, repo⟩ : Invocation) = c := Option.some.inj hc
    exact ⟨hlook, hpar, by simp⟩

theorem TraceSpec_step {m : RMap} {repo : List RevId} {trace : List Invocation}
    {res : RebaseResult} {revid newrevid : RevId} {newparents : List RevId}
    (hlook : lookupA m revid = some (newrevid, newparents))
    (hpar : ∀ p ∈ newparents, p ∈ repo)
    (hspec : TraceSpec m (newrevid :: repo)
      (trace ++ [⟨revid, newrevid, newparents, repo⟩]) res) :
    TraceSpec m repo trace res := by
  obtain ⟨tnew, htr, hrepo, hwf, hidx, hconf⟩ := hspec
  refine ⟨⟨revid, newrevid, newparents, repo⟩ :: tnew, ?_, ?_, ?_, ?_, ?_⟩
  · rw [htr, List.append_assoc]
    rfl
  · intro x
    rw [hrepo x]
    constructor
    · rintro (hx | ⟨inv, hinv, hx⟩)
      · rcases List.mem_cons.mp hx with h | h
        · exact Or.inr ⟨⟨revid, newrevid, newparents, repo⟩,
            List.mem_cons_self _ _, h.symm⟩
        · exact Or.inl h
      · exact Or.inr ⟨inv, List.mem_cons_of_mem _ hinv, hx⟩
    · rintro (hx | ⟨inv, hinv, hx⟩)
      · exact Or.inl (List.mem_cons_of_mem _ hx)
      · rcases List.mem_cons.mp hinv with h | h
        · subst h
          exact Or.inl (hx ▸ List.mem_cons_self _ _)
        · exact Or.inr ⟨inv, h, hx⟩
  · intro inv hinv
    rcases List.mem_cons.mp hinv with h | h
    · subst h
      exact ⟨hlook, hpar⟩
    · exact hwf inv h
  · intro k inv hk x
    cases k with
    | zero =>
      obtain rfl : (⟨revid, newrevid, newparents, repo⟩ : Invocation) = inv :=
        Option.some.inj (by simpa using hk)
      simp
    | succ k =>
      rw [List.get?_cons_succ] at hk
      rw [hidx k inv hk x]
      constructor
      · rintro (hx | ⟨j, hj, invj, hji, hx⟩)
        · rcases List.mem_cons.mp hx with h | h
          · exact Or.inr ⟨0, by omega, ⟨revid, newrevid, newparents, repo⟩, rfl, h.symm⟩
          · exact Or.inl h
        · exact Or.inr ⟨j + 1, by omega, invj, by simpa using hji, hx⟩
      · rintro (hx | ⟨j, hj, invj, hji, hx⟩)
        · exact Or.inl (List.mem_cons_of_mem _ hx)
        · cases j with
          | zero =>
            obtain rfl : (⟨revid, newrevid, newparents, repo⟩ : Invocation) = invj :=
              Option.some.inj (by simpa using hji)
            exact Or.inl (hx ▸ List.mem_cons_self _ _)
          | succ j =>
            rw [List.get?_cons_succ] at hji
            exact Or.inr ⟨j, by omega, invj, hji, hx⟩
  · intro c hc
    obtain ⟨hcl, hcp, hcr⟩ := hconf c hc
    refine ⟨hcl, hcp, ?_⟩
    intro x
    rw [hcr x]
    constructor
    · rintro (hx | ⟨inv, hinv, hx⟩)
      · rcases List.mem_cons.mp hx with h | h
        · exact Or.inr ⟨⟨revid, newrevid, newparents, repo⟩,
            List.mem_cons_self _ _, h.symm⟩
        · exact Or.inl h
      · exact Or.inr ⟨inv, List.mem_cons_of_mem _ hinv, hx⟩
    · rintro (hx | ⟨inv, hinv, hx⟩)
      · exact Or.inl (List.mem_cons_of_mem _ hx)
      · rcases List.mem_cons.mp hinv with h | h
        · subst h
          exact Or.inl (hx ▸ List.mem_cons_self _ _)
        · exact Or.inr ⟨inv, h, hx⟩

theorem rebaseLoop_trace_spec (replay : List RevId → RevId → RevId → List RevId → Bool)
    (m : RMap) :
    ∀ (fuel : Nat) (todo : List RevId) (deps : List (RevId × List RevId))
      (repo : List RevId) (trace : List Invocation) (res : RebaseResult),
      rebaseLoop replay m fuel todo deps repo trace = some res →
      TraceSpec m repo trace res := by
  intro fuel
  induction fuel with
  | zero =>
    intro todo deps repo trace res hres
    simp only [rebaseLoop] at hres
    cases todo with
    | nil =>
      obtain rfl : (⟨repo, trace, none⟩ : RebaseResult) = res := Option.some.inj hres
      exact TraceSpec_done m repo trace
    | cons a as => exact absurd hres (by simp)
  | succ fuel ih =>
    intro todo deps repo trace res hres
    simp only [rebaseLoop] at hres
    split at hres
    · obtain rfl : (⟨repo, trace, none⟩ : RebaseResult) = res := Option.some.inj hres
      exact TraceSpec_done m repo trace
    · next revid hlast =>
      split at hres
      · exact ih _ _ _ _ _ hres
      · next newrevid newparents hlook =>
        by_cases h1 : newparents.filter (fun p => repo.contains p) ≠ newparents
        · rw [if_pos h1] at hres
          exact ih _ _ _ _ _ hres
        · rw [if_neg h1] at hres
          push_neg at h1
          have hpar : ∀ p ∈ newparents, p ∈ repo := by
            intro p hp
            have := List.filter_eq_self.mp h1 p hp
            exact List.elem_iff.mp this
          by_cases h2 : repo.contains newrevid = true
          · rw [if_pos h2] at hres
            exact ih _ _ _ _ _ hres
          · rw [if_neg h2] at hres
            by_cases h3 : replay repo revid newrevid newparents = true
            · rw [if_pos h3] at hres
              split at hres
              · exact TraceSpec_step hlook hpar (ih _ _ _ _ _ hres)
              · exact TraceSpec_step hlook hpar (ih _ _ _ _ _ hres)
            · rw [if_neg h3] at hres
              obtain rfl :
                  (⟨repo, trace, some ⟨revid, newrevid, newparents, repo⟩⟩ : RebaseResult) =
                    res := Option.some.inj hres
              exact TraceSpec_conflict m repo trace hlook hpar

/-- **Claim C1.** During `rebase`, `replay_fn` is never invoked on a
revision before all of that revision's new parents exist in the repository:
every recorded invocation (including a conflicting one) saw every one of its
new parents in its repository snapshot.  Moreover, if revision `X`'s
new-parent list contains revision `Y`'s new id, `Y` is also a key of the
replace map, `Y`'s new id is not already present, and no other entry
produces that id, then the invocation for `Y` occurs strictly before the one
for `X` — regardless of the order in which the map entries are visited. -/
theorem rebase_parents_exist_and_order (repo0 : List RevId) (m : RMap)
    (replay : List RevId → RevId → RevId → List RevId → Bool) :
    (∀ inv, (inv ∈ (rebase repo0 m replay).trace ∨
        (rebase repo0 m replay).conflict = some inv) →
      ∀ p ∈ inv.parents, p ∈ inv.repoBefore) ∧
    (∀ X Y nX pX nY pY,
      lookupA m X = some (nX, pX) → lookupA m Y = some (nY, pY) →
      nY ∈ pX → nY ∉ repo0 →
      (∀ k nk pk, lookupA m k = some (nk, pk) → nk = nY → k = Y) →
      (∀ i invX, ((rebase repo0 m replay).trace).get? i = some invX → invX.old = X →
        ∃ j, j < i ∧ ∃ invY, ((rebase repo0 m replay).trace).get? j = some invY ∧
          invY.old = Y) ∧
      (∀ invX, (rebase repo0 m replay).conflict = some invX → invX.old = X →
        ∃ j invY, ((rebase repo0 m replay).trace).get? j = some invY ∧ invY.old = Y)) := by
  obtain ⟨tnew, htr, hrepo, hwf, hidx, hconf⟩ :=
    rebaseLoop_trace_spec replay m _ _ _ _ _ _ (rebase_eq_loop repo0 m replay)
  have htr' : (rebase repo0 m replay).trace = tnew := by simpa using htr
  constructor
  · intro inv hinv
    rcases hinv with h | h
    · exact (hwf inv (htr' ▸ h)).2
    · exact (hconf inv h).2.1
  · intro X Y nX pX nY pY hX hY hmem hnotin huniq
    constructor
    · intro i invX hi hold
      rw [htr'] at hi
      have hwfX := hwf invX (List.get?_mem hi)
      have hXeq : some (nX, pX) = some (invX.new, invX.parents) :=
        hX.symm.trans (hold ▸ hwfX.1)
      have hpX : pX = invX.parents := by
        have := Option.some.inj hXeq
        exact congrArg Prod.snd this
      have hrb : nY ∈ invX.repoBefore := hwfX.2 nY (hpX ▸ hmem)
      rcases (hidx i invX hi nY).mp hrb with h | ⟨j, hj, invj, hji, hx⟩
      · exact absurd h hnotin
      · have hwfj := hwf invj (List.get?_mem hji)
        have hje : invj.old = Y := huniq invj.old invj.new invj.parents hwfj.1 hx
        exact ⟨j, hj, invj, htr' ▸ hji, hje⟩
    · intro invX hcx hold
      obtain ⟨hcl, hcp, hcr⟩ := hconf invX hcx
      have hXeq : some (nX, pX) = some (invX.new, invX.parents) :=
        hX.symm.trans (hold ▸ hcl)
      have hpX : pX = invX.parents := by
        have := Option.some.inj hXeq
        exact congrArg Prod.snd this
      have hrb : nY ∈ invX.repoBefore := hcp nY (hpX ▸ hmem)
      rcases (hcr nY).mp hrb with h | ⟨inv, hinv, hx⟩
      · exact absurd h hnotin
      · rcases List.mem_iff_get?.mp hinv with ⟨j, hj⟩
        have hwfj := hwf inv hinv
        have hje : inv.old = Y := huniq inv.old inv.new inv.parents hwfj.1 hx
        exact ⟨j, inv, htr' ▸ hj, hje⟩

/-- Witness for C1: with the map listed as `[Y, X]` the executor pops `X`
first, defers it because `Yn` is missing, replays `Y`, then replays `X`;
the theorem yields an invocation of `Y` strictly before the invocation of
`X` at trace position 1. -/
theorem rebase_parents_exist_and_order_witness :
    ∃ j, j < 1 ∧ ∃ invY,
      ((rebase ["O"] [("Y", ("Yn", ["O"])), ("X", ("Xn", ["Yn"]))]
        (fun _ _ _ _ => true)).trace).get? j = some invY ∧ invY.old = "Y" :=
  ((rebase_parents_exist_and_order ["O"]
      [("Y", ("Yn", ["O"])), ("X", ("Xn", ["Yn"]))] (fun _ _ _ _ => true)).2
    "X" "Y" "Xn" ["Yn"] "Yn" ["O"] (by decide) (by decide) (by decide) (by decide)
    (by
      intro k nk pk hk hnk
      by_cases h1 : "Y" = k
      · exact h1.symm
      · by_cases h2 : "X" = k
        · rw [lookupA_cons, if_neg h1, lookupA_cons, if_pos h2] at hk
          have hnx : "Xn" = nk := congrArg (fun e => e.1) (Option.some.inj hk)
          exact absurd (hnx.trans hnk) (by decide)
        · rw [lookupA_cons, if_neg h1, lookupA_cons, if_neg h2, lookupA_nil] at hk
          exact absurd hk (by simp))).1
    1 ⟨"X", "Xn", ["Yn"], ["Yn", "O"]⟩ (by decide) rfl

/-! ## The transpose plan generator (`generate_transpose_plan`)

The revision graph is the dict `revision id -> parent ids`, embedded as an
insertion-ordered association list.  `childrenOf` is the `children` index
built by the first loop (one entry per occurrence of the parent, in graph
iteration order).  `setFirst` embeds
`parents[parents.index(r)] = newid` (replace the first occurrence;
`none` is the `ValueError` when `r` is absent).  The worklist loop pops from
the end of `todo` like `list.pop()`, records the pop order in a trace, and
runs on explicit fuel; `none` results embed both a Python exception and fuel
exhaustion (the latter is proved not to happen for fresh id generators). -/

abbrev Graph := List (RevId × List RevId)

def renamesKeys (renames : List (RevId × RevId)) : List RevId := renames.map Prod.fst

def graphParents (graph : Graph) (c : RevId) : List RevId :=
  (lookupA graph c).getD []

/-- The `children[x]` read of the child index: the graph nodes whose parent
list contains `x`.  The source builds the index with a key for every graph
node and for every parent occurring in the graph, and a lookup of any other
id raises KeyError; this total reading returns `[]` there, so a theorem that
asserts a completed run must confine every popped id to that key set
(`childDomain` below). -/
def childrenOf (graph : Graph) (x : RevId) : List RevId :=
  (graph.map (fun e => (e.2.filter (fun p => decide (p = x))).map (fun _ => e.1))).flatten

def setFirst (l : List RevId) (r nv : RevId) : Option (List RevId) :=
  match l with
  | [] => none
  | x :: xs => if x = r then some (nv :: xs) else (setFirst xs r nv).map (fun ys => x :: ys)

/-- The child's current best-known parent list: its replace-map entry if it
was already touched, else its graph parents. -/
def currentParents (graph : Graph) (rmap : RMap) (c : RevId) : List RevId :=
  match lookupA rmap c with
  | some e => e.2
  | none => graphParents graph c

/-- `if not newid in parents: parents[parents.index(r)] = newid`. -/
def substNew (parents : List RevId) (r newid : RevId) : Option (List RevId) :=
  if newid ∈ parents then some parents else setFirst parents r newid

/-- The body of `for c in children[r]`: skip seed renames, take the child's
current best-known parents, substitute `r`'s new id, assign a fresh id and
record the entry. -/
def transposeChild (renames : List (RevId × RevId)) (graph : Graph)
    (g : RevId → RevId) (r : RevId) (rmap : RMap) (c : RevId) : Option RMap :=
  if c ∈ renamesKeys renames then some rmap
  else
    match lookupA rmap r with
    | none => none
    | some er =>
      match substNew (currentParents graph rmap c) r er.1 with
      | none => none
      | some parents2 =>
        if g c = c then none
        else some (insertA rmap c (g c, parents2))

def transposeLoop (renames : List (RevId × RevId)) (graph : Graph) (g : RevId → RevId) :
    Nat → RMap → List RevId → List RevId → List RevId → Option (RMap × List RevId)
  | 0, rmap, _, todo, trace =>
    match todo with
    | [] => some (rmap, trace)
    | _ => none
  | fuel + 1, rmap, processed, todo, trace =>
    match todo.getLast? with
    | none => some (rmap, trace)
    | some r =>
      match (childrenOf graph r).foldlM (transposeChild renames graph g r) rmap with
      | none => none
      | some rmap2 =>
        transposeLoop renames graph g fuel rmap2 (processed.insert r)
          (todo.dropLast ++
            (childrenOf graph r).filter (fun c => decide (c ∉ processed.insert r)))
          (trace ++ [r])

def totalEdges (graph : Graph) : Nat := (graph.map (fun e => e.2.length)).sum

/-- The key set of the source's `children` dict: its first loop inserts a key
for every graph node and for every parent occurring in the graph, and
`children[r]` for any id outside this set raises KeyError. -/
def childDomain (graph : Graph) : List RevId :=
  graph.map Prod.fst ++ (graph.map Prod.snd).flatten

/-- `generate_transpose_plan`, instrumented with the pop order of the
worklist loop (the second component of the result).  The seed map pairs each
rename with `get_parents` of its new id; after the loop drains, entries for
the seed old ids are deleted. -/
def generate_transpose_plan (graph : Graph) (renames : List (RevId × RevId))
    (get_parents : RevId → List RevId) (g : RevId → RevId) :
    Option (RMap × List RevId) :=
  match transposeLoop renames graph g
      ((renamesKeys renames).length + totalEdges graph + 1)
      (renames.foldl (fun mm e => insertA mm e.1 (e.2, get_parents e.2)) [])
      [] (renamesKeys renames) [] with
  | none => none
  | some (mloop, trace) =>
    some ((renamesKeys renames).foldl (fun mm k => eraseA mm k) mloop, trace)

/-! ### Association-list facts used by the transpose proofs -/

theorem lookupA_insertA_self {α β : Type} [DecidableEq α] (l : List (α × β)) (k : α) (v : β) :
    lookupA (insertA l k v) k = some v := by
  induction l with
  | nil => simp [insertA, lookupA]
  | cons e es ih =>
    obtain ⟨k0, v0⟩ := e
    by_cases h : k0 = k
    · simp [insertA, h, lookupA]
    · simp [insertA, h, lookupA, ih]

theorem lookupA_insertA_ne {α β : Type} [DecidableEq α] (l : List (α × β)) {k k' : α} (v : β)
    (h : k' ≠ k) : lookupA (insertA l k v) k' = lookupA l k' := by
  induction l with
  | nil => simp [insertA, lookupA, Ne.symm h]
  | cons e es ih =>
    obtain ⟨k0, v0⟩ := e
    by_cases h0 : k0 = k
    · subst h0
      simp [insertA, lookupA, Ne.symm h]
    · simp [insertA, h0, lookupA, ih]

theorem lookupA_mem {α β : Type} [DecidableEq α] {l : List (α × β)} {k : α} {v : β}
    (h : lookupA l k = some v) : (k, v) ∈ l := by
  induction l with
  | nil => simp [lookupA] at h
  | cons e es ih =>
    obtain ⟨k0, v0⟩ := e
    by_cases h0 : k0 = k
    · rw [lookupA_cons, if_pos h0] at h
      obtain rfl := Option.some.inj h
      exact h0 ▸ List.mem_cons_self _ _
    · rw [lookupA_cons, if_neg h0] at h
      exact List.mem_cons_of_mem _ (ih h)

theorem lookupA_of_mem_nodup {α β : Type} [DecidableEq α] {l : List (α × β)} {k : α} {v : β}
    (hn : (l.map Prod.fst).Nodup) (h : (k, v) ∈ l) : lookupA l k = some v := by
  induction l with
  | nil => exact absurd h (List.not_mem_nil _)
  | cons e es ih =>
    obtain ⟨k0, v0⟩ := e
    simp only [List.map_cons, List.nodup_cons] at hn
    rcases List.mem_cons.mp h with h1 | h1
    · obtain ⟨rfl, rfl⟩ := Prod.mk.injEq .. ▸ h1
      rw [lookupA_cons, if_pos rfl]
    · have hne : k0 ≠ k := by
        intro hk
        subst hk
        exact hn.1 (List.mem_map_of_mem Prod.fst h1)
      rw [lookupA_cons, if_neg hne]
      exact ih hn.2 h1

theorem insertA_keys {α β : Type} [DecidableEq α] (l : List (α × β)) (k : α) (v : β) :
    (insertA l k v).map Prod.fst =
      if k ∈ l.map Prod.fst then l.map Prod.fst else l.map Prod.fst ++ [k] := by
  induction l with
  | nil => simp [insertA]
  | cons e es ih =>
    obtain ⟨k0, v0⟩ := e
    by_cases h : k0 = k
    · subst h
      simp [insertA]
    · simp only [insertA, if_neg h, List.map_cons, ih]
      by_cases hm : k ∈ es.map Prod.fst
      · rw [if_pos hm, if_pos (List.mem_cons_of_mem _ hm)]
      · rw [if_neg hm, if_neg ?_]
        · simp
        · intro hc
          rcases List.mem_cons.mp hc with hc1 | hc1
          · exact h hc1.symm
          · exact hm hc1

theorem insertA_keys_nodup {α β : Type} [DecidableEq α] {l : List (α × β)} (k : α) (v : β)
    (hn : (l.map Prod.fst).Nodup) : ((insertA l k v).map Prod.fst).Nodup := by
  rw [insertA_keys]
  by_cases hm : k ∈ l.map Prod.fst
  · rw [if_pos hm]
    exact hn
  · rw [if_neg hm]
    simp [List.nodup_append, hn, hm]

theorem lookupA_eraseA_ne {α β : Type} [DecidableEq α] (l : List (α × β)) {k k' : α}
    (h : k' ≠ k) : lookupA (eraseA l k) k' = lookupA l k' := by
  induction l with
  | nil => rfl
  | cons e es ih =>
    obtain ⟨k0, v0⟩ := e
    by_cases h0 : k0 = k
    · subst h0
      simp [eraseA, lookupA, Ne.symm h]
    · simp [eraseA, h0, lookupA, ih]

theorem lookupA_eraseA_none {α β : Type} [DecidableEq α] {l : List (α × β)} (k : α) {k' : α}
    (h : lookupA l k' = none) : lookupA (eraseA l k) k' = none := by
  induction l with
  | nil => rfl
  | cons e es ih =>
    obtain ⟨k0, v0⟩ := e
    rw [lookupA_cons] at h
    by_cases h1 : k0 = k'
    · rw [if_pos h1] at h
      exact absurd h (by simp)
    · rw [if_neg h1] at h
      by_cases h0 : k0 = k
      · simpa [eraseA, h0] using h
      · simp [eraseA, h0, lookupA, h1, ih h]

theorem eraseA_keys_sublist {α β : Type} [DecidableEq α] (l : List (α × β)) (k : α) :
    ((eraseA l k).map Prod.fst).Sublist (l.map Prod.fst) := by
  induction l with
  | nil => simp [eraseA]
  | cons e es ih =>
    obtain ⟨k0, v0⟩ := e
    by_cases h0 : k0 = k
    · simp only [eraseA, if_pos h0, List.map_cons]
      exact (List.sublist_cons_self _ _)
    · simp only [eraseA, if_neg h0, List.map_cons]
      exact List.Sublist.cons₂ _ ih

theorem lookupA_eraseA_self_of_nodup {α β : Type} [DecidableEq α] {l : List (α × β)} {k : α}
    (hn : (l.map Prod.fst).Nodup) : lookupA (eraseA l k) k = none := by
  induction l with
  | nil => rfl
  | cons e es ih =>
    obtain ⟨k0, v0⟩ := e
    simp only [List.map_cons, List.nodup_cons] at hn
    by_cases h0 : k0 = k
    · subst h0
      simp only [eraseA, if_pos rfl]
      exact lookupA_eq_none hn.1
    · simp [eraseA, h0, lookupA, ih hn.2]

theorem strip_lookup_not_mem {α β : Type} [DecidableEq α] (ks : List α) (l : List (α × β))
    (d : α) (hd : d ∉ ks) :
    lookupA (ks.foldl (fun mm k => eraseA mm k) l) d = lookupA l d := by
  induction ks generalizing l with
  | nil => rfl
  | cons k0 ks ih =>
    have hd1 : d ≠ k0 := fun h => hd (h ▸ List.mem_cons_self _ _)
    have hd2 : d ∉ ks := fun h => hd (List.mem_cons_of_mem _ h)
    simp only [List.foldl_cons]
    rw [ih _ hd2, lookupA_eraseA_ne _ hd1]

theorem strip_lookup_none_of_none {α β : Type} [DecidableEq α] (ks : List α)
    (l : List (α × β)) (k : α) (h : lookupA l k = none) :
    lookupA (ks.foldl (fun mm k' => eraseA mm k') l) k = none := by
  induction ks generalizing l with
  | nil => exact h
  | cons k0 ks ih =>
    simp only [List.foldl_cons]
    exact ih _ (lookupA_eraseA_none k0 h)

theorem strip_lookup_mem {α β : Type} [DecidableEq α] (ks : List α) (l : List (α × β))
    (k : α) (hk : k ∈ ks) (hn : (l.map Prod.fst).Nodup) :
    lookupA (ks.foldl (fun mm k' => eraseA mm k') l) k = none := by
  induction ks generalizing l with
  | nil => exact absurd hk (List.not_mem_nil _)
  | cons k0 ks ih =>
    simp only [List.foldl_cons]
    by_cases h0 : k = k0
    · subst h0
      exact strip_lookup_none_of_none ks _ k (lookupA_eraseA_self_of_nodup hn)
    · rcases List.mem_cons.mp hk with h1 | h1
      · exact absurd h1 h0
      · exact ih _ h1 (List.Nodup.sublist (eraseA_keys_sublist l k0) hn)

/-! ### Coverage of the transpose loop (for claim C2)

`transposeChild` either leaves the map unchanged (seed child) or stores an
entry `(g c, _)` for the child `c`; existing keys are never removed.  These
light lemmas are conditional on the call succeeding, which is all the
amended C2 needs. -/

theorem transposeChild_spec {renames : List (RevId × RevId)} {graph : Graph}
    {g : RevId → RevId} {r : RevId} {rmap rmap2 : RMap} {c : RevId}
    (h : transposeChild renames graph g r rmap c = some rmap2) :
    (∀ k e, lookupA rmap k = some e → ∃ e2, lookupA rmap2 k = some e2) ∧
    (c ∉ renamesKeys renames → ∃ e, lookupA rmap2 c = some e) ∧
    (∀ k e2, lookupA rmap2 k = some e2 →
      lookupA rmap k = some e2 ∨ (k = c ∧ c ∉ renamesKeys renames ∧ e2.1 = g c)) ∧
    ((rmap.map Prod.fst).Nodup → (rmap2.map Prod.fst).Nodup) := by
  unfold transposeChild at h
  by_cases hc : c ∈ renamesKeys renames
  · rw [if_pos hc] at h
    obtain rfl := Option.some.inj h
    exact ⟨fun k e he => ⟨e, he⟩, fun hnc => absurd hc hnc, fun k e2 he2 => Or.inl he2,
      fun hn => hn⟩
  · rw [if_neg hc] at h
    split at h
    · exact absurd h (by simp)
    · next er her =>
      split at h
      · exact absurd h (by simp)
      · next parents2 hsub =>
        by_cases hgc : g c = c
        · rw [if_pos hgc] at h
          exact absurd h (by simp)
        · rw [if_neg hgc] at h
          obtain rfl := Option.some.inj h
          refine ⟨?_, ?_, ?_, ?_⟩
          · intro k e he
            by_cases hk : k = c
            · subst hk
              exact ⟨_, lookupA_insertA_self rmap k (g k, parents2)⟩
            · exact ⟨e, (lookupA_insertA_ne rmap _ hk).symm ▸ he⟩
          · intro _
            exact ⟨_, lookupA_insertA_self rmap c (g c, parents2)⟩
          · intro k e2 he2
            by_cases hk : k = c
            · subst hk
              rw [lookupA_insertA_self] at he2
              obtain rfl := Option.some.inj he2
              exact Or.inr ⟨rfl, hc, rfl⟩
            · rw [lookupA_insertA_ne rmap _ hk] at he2
              exact Or.inl he2
          · intro hn
            exact insertA_keys_nodup _ _ hn

theorem transposeChildren_spec {renames : List (RevId × RevId)} {graph : Graph}
    {g : RevId → RevId} {r : RevId} :
    ∀ (cs : List RevId) (rmap rmap2 : RMap),
      cs.foldlM (transposeChild renames graph g r) rmap = some rmap2 →
      (∀ k e, lookupA rmap k = some e → ∃ e2, lookupA rmap2 k = some e2) ∧
      (∀ c ∈ cs, c ∉ renamesKeys renames → ∃ e, lookupA rmap2 c = some e) ∧
      (∀ k e2, lookupA rmap2 k = some e2 →
        lookupA rmap k = some e2 ∨ (k ∈ cs ∧ k ∉ renamesKeys renames ∧ e2.1 = g k)) ∧
      ((rmap.map Prod.fst).Nodup → (rmap2.map Prod.fst).Nodup) := by
  intro cs
  induction cs with
  | nil =>
    intro rmap rmap2 h
    obtain rfl : rmap = rmap2 := Option.some.inj h
    exact ⟨fun k e he => ⟨e, he⟩, by simp, fun k e2 he2 => Or.inl he2, fun hn => hn⟩
  | cons c cs ih =>
    intro rmap rmap2 h
    rw [List.foldlM_cons] at h
    cases hstep : transposeChild renames graph g r rmap c with
    | none => rw [hstep] at h; exact absurd h (by simp)
    | some rmap1 =>
      rw [hstep] at h
      simp only [Option.bind_eq_bind, Option.some_bind] at h
      obtain ⟨hmono1, hcov1, htr1, hnd1⟩ := transposeChild_spec hstep
      obtain ⟨hmono2, hcov2, htr2, hnd2⟩ := ih rmap1 rmap2 h
      refine ⟨?_, ?_, ?_, fun hn => hnd2 (hnd1 hn)⟩
      · intro k e he
        rcases hmono1 k e he with ⟨e1, he1⟩
        exact hmono2 k e1 he1
      · intro c' hc' hnc'
        rcases List.mem_cons.mp hc' with h1 | h1
        · subst h1
          rcases hcov1 hnc' with ⟨e1, he1⟩
          exact hmono2 c' e1 he1
        · exact hcov2 c' h1 hnc'
      · intro k e2 he2
        rcases htr2 k e2 he2 with h1 | h1
        · rcases htr1 k e2 h1 with h2 | h2
          · exact Or.inl h2
          · obtain ⟨rfl, hnr, hval⟩ := h2
            exact Or.inr ⟨List.mem_cons_self _ _, hnr, hval⟩
        · exact Or.inr ⟨List.mem_cons_of_mem _ h1.1, h1.2.1, h1.2.2⟩

theorem eq_dropLast_append_of_getLast? {α : Type} {l : List α} {r : α}
    (h : l.getLast? = some r) : l = l.dropLast ++ [r] := by
  have hne : l ≠ [] := by
    intro he
    rw [he] at h
    simp at h
  conv_lhs => rw [← List.dropLast_append_getLast hne]
  rw [List.getLast?_eq_getLast _ hne] at h
  rw [Option.some.inj h]

/-- Master coverage lemma for the transpose worklist loop: whenever the loop
completes, (i) the final trace extends the incoming one, (ii) everything in
`todo` is eventually popped, (iii) entries are never lost, (iv) every popped
revision has had all its children either recorded in the final map (unless
they are seed renames) and themselves popped (unless already processed), and
(v) every entry of the final map is either inherited or carries the freshly
generated id of its (non-seed) key; key distinctness is preserved. -/
theorem transposeLoop_spec (renames : List (RevId × RevId)) (graph : Graph)
    (g : RevId → RevId) :
    ∀ (fuel : Nat) (rmap : RMap) (processed todo trace : List RevId)
      (mfin : RMap) (tr : List RevId),
      transposeLoop renames graph g fuel rmap processed todo trace = some (mfin, tr) →
      (∃ tnew, tr = trace ++ tnew) ∧
      (∀ x ∈ todo, x ∈ tr) ∧
      (∀ k e, lookupA rmap k = some e → ∃ e2, lookupA mfin k = some e2) ∧
      (∀ r2 ∈ tr, r2 ∈ trace ∨ ∀ c ∈ childrenOf graph r2,
        (c ∈ renamesKeys renames ∨ ∃ e, lookupA mfin c = some e) ∧
        (c ∈ processed ∨ c ∈ tr)) ∧
      (∀ k e2, lookupA mfin k = some e2 →
        lookupA rmap k = some e2 ∨ (k ∉ renamesKeys renames ∧ e2.1 = g k)) ∧
      ((rmap.map Prod.fst).Nodup → (mfin.map Prod.fst).Nodup) := by
  intro fuel
  induction fuel with
  | zero =>
    intro rmap processed todo trace mfin tr h
    simp only [transposeLoop] at h
    cases todo with
    | nil =>
      obtain ⟨rfl, rfl⟩ : rmap = mfin ∧ trace = tr := by
        have := Option.some.inj h
        exact ⟨congrArg Prod.fst this, congrArg Prod.snd this⟩
      exact ⟨⟨[], by simp⟩, by simp, fun k e he => ⟨e, he⟩,
        fun r2 h2 => Or.inl h2, fun k e2 he2 => Or.inl he2, fun hn => hn⟩
    | cons a as => exact absurd h (by simp)
  | succ fuel ih =>
    intro rmap processed todo trace mfin tr h
    simp only [transposeLoop] at h
    split at h
    · next hlast =>
      have htodo : todo = [] := List.getLast?_eq_none_iff.mp hlast
      obtain ⟨rfl, rfl⟩ : rmap = mfin ∧ trace = tr := by
        have := Option.some.inj h
        exact ⟨congrArg Prod.fst this, congrArg Prod.snd this⟩
      subst htodo
      exact ⟨⟨[], by simp⟩, by simp, fun k e he => ⟨e, he⟩,
        fun r2 h2 => Or.inl h2, fun k e2 he2 => Or.inl he2, fun hn => hn⟩
    · next r hlast =>
      split at h
      · exact absurd h (by simp)
      · next rmap2 hfold =>
        obtain ⟨foldMono, foldCov, foldTr, foldNd⟩ :=
          transposeChildren_spec (childrenOf graph r) rmap rmap2 hfold
        obtain ⟨⟨tnew2, htr2⟩, ih1, ih2, ih3, ih4, ih5⟩ := ih _ _ _ _ _ _ h
        have hrtr : r ∈ tr := by
          rw [htr2]
          exact List.mem_append_left _ (List.mem_append_right _ (List.mem_singleton.mpr rfl))
        have htodoeq : todo = todo.dropLast ++ [r] := eq_dropLast_append_of_getLast? hlast
        refine ⟨⟨[r] ++ tnew2, by rw [htr2, List.append_assoc]⟩, ?_, ?_, ?_, ?_, ?_⟩
        · intro x hx
          rw [htodoeq] at hx
          rcases List.mem_append.mp hx with h1 | h1
          · exact ih1 x (List.mem_append_left _ h1)
          · obtain rfl := List.mem_singleton.mp h1
            exact hrtr
        · intro k e he
          rcases foldMono k e he with ⟨e1, he1⟩
          exact ih2 k e1 he1
        · intro r2 hr2
          rcases ih3 r2 hr2 with h1 | h1
          · rcases List.mem_append.mp h1 with h2 | h2
            · exact Or.inl h2
            · obtain rfl := List.mem_singleton.mp h2
              refine Or.inr ?_
              intro c hcchild
              constructor
              · by_cases hcr : c ∈ renamesKeys renames
                · exact Or.inl hcr
                · rcases foldCov c hcchild hcr with ⟨e1, he1⟩
                  exact Or.inr (ih2 c e1 he1)
              · by_cases hcp : c ∈ processed.insert r2
                · rcases List.mem_insert_iff.mp hcp with h3 | h3
                  · exact Or.inr (h3 ▸ hrtr)
                  · exact Or.inl h3
                · refine Or.inr (ih1 c ?_)
                  refine List.mem_append_right _ (List.mem_filter.mpr ⟨hcchild, ?_⟩)
                  exact decide_eq_true hcp
          · refine Or.inr ?_
            intro c hcchild
            obtain ⟨ha, hb⟩ := h1 c hcchild
            refine ⟨ha, ?_⟩
            rcases hb with h2 | h2
            · rcases List.mem_insert_iff.mp h2 with h3 | h3
              · exact Or.inr (h3 ▸ hrtr)
              · exact Or.inl h3
            · exact Or.inr h2
        · intro k e2 he2
          rcases ih4 k e2 he2 with h1 | h1
          · rcases foldTr k e2 h1 with h2 | h2
            · exact Or.inl h2
            · exact Or.inr ⟨h2.2.1, h2.2.2⟩
          · exact Or.inr h1
        · intro hn
          exact ih5 (foldNd hn)

/-- The parent-edge between graph nodes: `r` is a parent of `c`, so `c` is a
child of `r`.  Transitive closure of this relation is "transitive
descendant". -/
def childRel (graph : Graph) (r c : RevId) : Prop := r ∈ graphParents graph c

instance (graph : Graph) (r c : RevId) : Decidable (childRel graph r c) := by
  unfold childRel
  infer_instance

theorem childRel_mem_childrenOf {graph : Graph} {r c : RevId}
    (h : childRel graph r c) : c ∈ childrenOf graph r := by
  unfold childRel graphParents at h
  cases hl : lookupA graph c with
  | none => rw [hl] at h; simp at h
  | some ps =>
    rw [hl] at h
    have hmem : (c, ps) ∈ graph := lookupA_mem hl
    unfold childrenOf
    rw [List.mem_flatten]
    refine ⟨(ps.filter (fun p => decide (p = r))).map (fun _ => c), ?_, ?_⟩
    · exact List.mem_map_of_mem (fun e => (e.2.filter (fun p => decide (p = r))).map
        (fun _ => e.1)) hmem
    · exact List.mem_map.mpr ⟨r, List.mem_filter.mpr ⟨h, by simp⟩, rfl⟩

theorem seedMap_lookup_none (renames : List (RevId × RevId)) (gp : RevId → List RevId)
    {d : RevId} (hd : d ∉ renamesKeys renames) :
    lookupA (renames.foldl (fun mm e => insertA mm e.1 (e.2, gp e.2)) []) d = none := by
  suffices h : ∀ acc : RMap, lookupA acc d = none →
      lookupA (renames.foldl (fun mm e => insertA mm e.1 (e.2, gp e.2)) acc) d = none by
    exact h [] rfl
  induction renames with
  | nil => intro acc hacc; exact hacc
  | cons e es ih =>
    intro acc hacc
    have hd1 : d ≠ e.1 := by
      intro hh
      exact absurd (hh ▸ List.mem_map_of_mem Prod.fst (List.mem_cons_self e es)) hd
    have hd2 : d ∉ renamesKeys es := by
      intro hh
      rcases List.mem_map.mp hh with ⟨e2, he2, hke⟩
      exact hd (hke ▸ List.mem_map_of_mem Prod.fst (List.mem_cons_of_mem e he2))
    simp only [List.foldl_cons]
    exact ih hd2 _ (by rw [lookupA_insertA_ne _ _ hd1]; exact hacc)

theorem seedMap_keys_nodup (renames : List (RevId × RevId)) (gp : RevId → List RevId) :
    (((renames.foldl (fun mm e => insertA mm e.1 (e.2, gp e.2)) []).map Prod.fst)).Nodup := by
  suffices h : ∀ acc : RMap, (acc.map Prod.fst).Nodup →
      (((renames.foldl (fun mm e => insertA mm e.1 (e.2, gp e.2)) acc).map Prod.fst)).Nodup by
    exact h [] (by simp)
  induction renames with
  | nil => intro acc hacc; exact hacc
  | cons e es ih =>
    intro acc hacc
    simp only [List.foldl_cons]
    exact ih _ (insertA_keys_nodup _ _ hacc)

/-- Counterexample to C2 as stated: in graph `{A: [], B: [A]}` with seed
renames `{A: A2, B: B2}`, revision `B` is a transitive descendant of the
renamed revision `A`, yet the final map is empty — seed keys are always
stripped, so a descendant that is itself a seed gets no entry, contradicting
"an entry for every transitive descendant". -/
theorem generate_transpose_plan_seed_descendant_cex :
    generate_transpose_plan [("A", []), ("B", ["A"])] [("A", "A2"), ("B", "B2")]
        (fun _ => []) (fun s => s ++ "1") = some ([], ["B", "A"]) ∧
    childRel [("A", []), ("B", ["A"])] "A" "B" ∧
    lookupA ([] : RMap) "B" = none :=
  ⟨by decide, by decide, rfl⟩

/-- **Claim C2 (amended).** Whenever `generate_transpose_plan` completes, its
result contains an entry whose new id is the freshly generated
`generateNewId d` for every transitive descendant `d` of a renamed revision
that is *not itself* a seed rename key, and no seed rename old id appears as
a key.  (A descendant that is itself a seed is stripped along with the other
seeds, which is what the counterexample exhibits.) -/
theorem generate_transpose_plan_descendants (graph : Graph)
    (renames : List (RevId × RevId)) (gp : RevId → List RevId) (g : RevId → RevId)
    (mfin : RMap) (tr : List RevId)
    (hrun : generate_transpose_plan graph renames gp g = some (mfin, tr)) :
    (∀ s d, s ∈ renamesKeys renames → Relation.TransGen (childRel graph) s d →
      d ∉ renamesKeys renames → ∃ ps, lookupA mfin d = some (g d, ps)) ∧
    (∀ k ∈ renamesKeys renames, lookupA mfin k = none) := by
  unfold generate_transpose_plan at hrun
  split at hrun
  · exact absurd hrun (by simp)
  · next mloop trace2 hloop =>
    have hpair := Option.some.inj hrun
    have hm : (renamesKeys renames).foldl (fun mm k => eraseA mm k) mloop = mfin :=
      congrArg Prod.fst hpair
    obtain ⟨⟨tnew, htr⟩, h1, h2, h3, h4, h5⟩ :=
      transposeLoop_spec renames graph g _ _ _ _ _ _ _ hloop
    have hnd0 := seedMap_keys_nodup renames gp
    have hndloop := h5 hnd0
    constructor
    · intro s d hs htg hd
      have hmain : ∀ z, Relation.TransGen (childRel graph) s z →
          z ∈ trace2 ∧ (z ∈ renamesKeys renames ∨ ∃ e, lookupA mloop z = some e) := by
        intro z htz
        induction htz with
        | single hsz =>
          have hstr : s ∈ trace2 := h1 s hs
          rcases h3 s hstr with hfalse | hstep
          · exact absurd hfalse (List.not_mem_nil s)
          · obtain ⟨ha, hb⟩ := hstep _ (childRel_mem_childrenOf hsz)
            refine ⟨?_, ha⟩
            rcases hb with hb1 | hb1
            · exact absurd hb1 (List.not_mem_nil _)
            · exact hb1
        | tail htz hlaststep ihz =>
          rcases h3 _ ihz.1 with hfalse | hstep
          · exact absurd hfalse (List.not_mem_nil _)
          · obtain ⟨ha, hb⟩ := hstep _ (childRel_mem_childrenOf hlaststep)
            refine ⟨?_, ha⟩
            rcases hb with hb1 | hb1
            · exact absurd hb1 (List.not_mem_nil _)
            · exact hb1
      obtain ⟨_, hentry⟩ := hmain d htg
      rcases hentry with hseed | ⟨e, he⟩
      · exact absurd hseed hd
      · rcases h4 d e he with hcontra | ⟨_, hval⟩
        · rw [seedMap_lookup_none renames gp hd] at hcontra
          exact absurd hcontra (by simp)
        · refine ⟨e.2, ?_⟩
          rw [← hm, strip_lookup_not_mem _ _ _ hd, he, ← hval]
    · intro k hk
      rw [← hm]
      exact strip_lookup_mem _ _ _ hk hndloop

/-- Witness for the amended C2 at the spec's example graph
`{A: [], B: [A], C: [B]}` with renames `{A: A2}`: the transitive descendant
`C` receives the freshly generated id `C1`. -/
theorem generate_transpose_plan_descendants_witness :
    ∃ ps, lookupA ([("B", ("B1", ["A2"])), ("C", ("C1", ["B1"]))] : RMap) "C" =
      some ("C1", ps) :=
  (generate_transpose_plan_descendants [("A", []), ("B", ["A"]), ("C", ["B"])]
    [("A", "A2")] (fun _ => []) (fun s => s ++ "1")
    [("B", ("B1", ["A2"])), ("C", ("C1", ["B1"]))] ["A", "B", "C"]
    (by decide)).1 "A" "C" (by decide)
    (Relation.TransGen.tail (Relation.TransGen.single
      (show childRel [("A", []), ("B", ["A"]), ("C", ["B"])] "A" "B" by decide))
      (show childRel [("A", []), ("B", ["A"]), ("C", ["B"])] "B" "C" by decide))
    (by decide)

/-! ### Termination of the transpose worklist loop (for claim C9)

The loop is proved total (no crash, no fuel exhaustion) whenever the id
generator and the rename targets are *fresh*: they never collide with a
revision id occurring in the graph or the rename keys.  Termination follows
from a potential function `phi` — the worklist length plus the total size of
the children lists of the not-yet-processed nodes — that strictly decreases
at every pop; that it decreases at a *re*-pop of an already processed node
relies on a stack invariant: every processed occurrence in the worklist has
all its children either processed or above it (popped before it). -/

def rawUniverse (renames : List (RevId × RevId)) (graph : Graph) : List RevId :=
  renamesKeys renames ++ graph.map Prod.fst

def allNodes (renames : List (RevId × RevId)) (graph : Graph) : List RevId :=
  (rawUniverse renames graph).dedup

/-- The current new id of a revision: its rename target when it is a seed,
otherwise its generated id.  `replace_map[r][0]` always equals this (the
`ValStable` invariant below). -/
def newidOf (renames : List (RevId × RevId)) (g : RevId → RevId) (p : RevId) : RevId :=
  match lookupA renames p with
  | some v => v
  | none => g p

/-- Freshness of generated ids and rename targets: they never collide with a
rename key or a graph node id. -/
def Fresh (renames : List (RevId × RevId)) (graph : Graph) (g : RevId → RevId) : Prop :=
  (∀ x, g x ∉ rawUniverse renames graph) ∧
  (∀ e ∈ renames, e.2 ∉ rawUniverse renames graph)

/-- Every non-seed entry's stored parent list accounts for each of its graph
parents: either still by old id or already substituted by its new id. -/
def SubstInv (renames : List (RevId × RevId)) (graph : Graph) (g : RevId → RevId)
    (rmap : RMap) : Prop :=
  ∀ c, c ∉ renamesKeys renames → ∀ e, lookupA rmap c = some e →
    ∀ p ∈ graphParents graph c, p ∈ e.2 ∨ newidOf renames g p ∈ e.2

/-- Every entry's stored new id is `newidOf` of its key. -/
def ValStable (renames : List (RevId × RevId)) (g : RevId → RevId) (rmap : RMap) : Prop :=
  ∀ k e, lookupA rmap k = some e → e.1 = newidOf renames g k

def phi (renames : List (RevId × RevId)) (graph : Graph)
    (processed todo : List RevId) : Nat :=
  todo.length +
    (((allNodes renames graph).filter (fun x => decide (x ∉ processed))).map
      (fun x => (childrenOf graph x).length)).sum

/-- Stack invariant: whenever an already-processed revision still occurs in
the worklist, all of its children are either processed or stacked above it
(popped before it is reached again). -/
def StackInv (graph : Graph) (processed todo : List RevId) : Prop :=
  ∀ pre r post, todo = pre ++ r :: post → r ∈ processed →
    ∀ c ∈ childrenOf graph r, c ∈ processed ∨ c ∈ post

theorem setFirst_isSome {l : List RevId} {r : RevId} (h : r ∈ l) (nv : RevId) :
    ∃ l2, setFirst l r nv = some l2 := by
  induction l with
  | nil => exact absurd h (List.not_mem_nil r)
  | cons x xs ih =>
    by_cases hx : x = r
    · exact ⟨nv :: xs, by simp [setFirst, hx]⟩
    · rcases ih (by
        rcases List.mem_cons.mp h with h1 | h1
        · exact absurd h1.symm hx
        · exact h1) with ⟨l2, hl2⟩
      exact ⟨x :: l2, by simp [setFirst, hx, hl2]⟩

theorem setFirst_mem {l l2 : List RevId} {r nv : RevId}
    (h : setFirst l r nv = some l2) :
    nv ∈ l2 ∧ ∀ v ∈ l, v ≠ r → v ∈ l2 := by
  induction l generalizing l2 with
  | nil => simp [setFirst] at h
  | cons x xs ih =>
    by_cases hx : x = r
    · rw [setFirst, if_pos hx] at h
      obtain rfl := Option.some.inj h
      refine ⟨List.mem_cons_self _ _, ?_⟩
      intro v hv hvr
      rcases List.mem_cons.mp hv with h1 | h1
      · exact absurd (h1.trans hx) hvr
      · exact List.mem_cons_of_mem _ h1
    · rw [setFirst, if_neg hx] at h
      cases hs : setFirst xs r nv with
      | none => rw [hs] at h; simp at h
      | some l2' =>
        rw [hs] at h
        obtain rfl : x :: l2' = l2 := Option.some.inj h
        obtain ⟨h1, h2⟩ := ih hs
        refine ⟨List.mem_cons_of_mem _ h1, ?_⟩
        intro v hv hvr
        rcases List.mem_cons.mp hv with h3 | h3
        · exact h3 ▸ List.mem_cons_self _ _
        · exact List.mem_cons_of_mem _ (h2 v h3 hvr)

theorem newidOf_fresh {renames : List (RevId × RevId)} {graph : Graph} {g : RevId → RevId}
    (hfresh : Fresh renames graph g) (p : RevId) :
    newidOf renames g p ∉ rawUniverse renames graph := by
  unfold newidOf
  cases hl : lookupA renames p with
  | none => exact hfresh.1 p
  | some v => exact hfresh.2 (p, v) (lookupA_mem hl)

theorem childrenOf_mem_keys {graph : Graph} {r c : RevId}
    (h : c ∈ childrenOf graph r) : c ∈ graph.map Prod.fst := by
  unfold childrenOf at h
  rcases List.mem_flatten.mp h with ⟨piece, hp, hcp⟩
  rcases List.mem_map.mp hp with ⟨e, hem, hpe⟩
  subst hpe
  rcases List.mem_map.mp hcp with ⟨_, _, hc⟩
  exact hc ▸ List.mem_map_of_mem Prod.fst hem

theorem childrenOf_mem_parent {graph : Graph} (hgn : (graph.map Prod.fst).Nodup)
    {r c : RevId} (h : c ∈ childrenOf graph r) : r ∈ graphParents graph c := by
  unfold childrenOf at h
  rcases List.mem_flatten.mp h with ⟨piece, hp, hcp⟩
  rcases List.mem_map.mp hp with ⟨e, hem, hpe⟩
  subst hpe
  rcases List.mem_map.mp hcp with ⟨q, hq, hc⟩
  have hr : r ∈ e.2 := by
    have := List.mem_filter.mp hq
    have hq2 : q = r := of_decide_eq_true this.2
    exact hq2 ▸ this.1
  subst hc
  unfold graphParents
  rw [lookupA_of_mem_nodup hgn (show (e.1, e.2) ∈ graph from hem)]
  exact hr

/-- `transposeChild` cannot fail under freshness and the two invariants: the
child's parent list is guaranteed to still mention `r` (or already its new
id), so `parents.index(r)` cannot raise, and both invariants survive the
update. -/
theorem transposeChild_total {renames : List (RevId × RevId)} {graph : Graph}
    {g : RevId → RevId} {r : RevId} {rmap : RMap} {c : RevId}
    (hfresh : Fresh renames graph g)
    (hrraw : r ∈ rawUniverse renames graph)
    (hcg : c ∈ graph.map Prod.fst)
    (hrc : r ∈ graphParents graph c)
    (hr : ∃ er, lookupA rmap r = some er)
    (hsub : SubstInv renames graph g rmap)
    (hval : ValStable renames g rmap) :
    ∃ rmap2, transposeChild renames graph g r rmap c = some rmap2 ∧
      SubstInv renames graph g rmap2 ∧ ValStable renames g rmap2 := by
  unfold transposeChild
  by_cases hcr : c ∈ renamesKeys renames
  · rw [if_pos hcr]
    exact ⟨rmap, rfl, hsub, hval⟩
  · rw [if_neg hcr]
    obtain ⟨er, her⟩ := hr
    simp only [her]
    have hnv : er.1 = newidOf renames g r := hval r er her
    have hP0 : ∀ p ∈ graphParents graph c,
        p ∈ currentParents graph rmap c ∨ newidOf renames g p ∈ currentParents graph rmap c := by
      intro p hp
      unfold currentParents
      cases hlc : lookupA rmap c with
      | none => exact Or.inl hp
      | some e => exact hsub c hcr e hlc p hp
    have hsubst : ∃ parents2, substNew (currentParents graph rmap c) r er.1 = some parents2 ∧
        (∀ p ∈ graphParents graph c, p ∈ parents2 ∨ newidOf renames g p ∈ parents2) := by
      unfold substNew
      by_cases hin : er.1 ∈ currentParents graph rmap c
      · rw [if_pos hin]
        exact ⟨_, rfl, hP0⟩
      · rw [if_neg hin]
        have hrin : r ∈ currentParents graph rmap c := by
          rcases hP0 r hrc with h1 | h1
          · exact h1
          · rw [hnv] at hin
            exact absurd h1 hin
        rcases setFirst_isSome hrin er.1 with ⟨parents2, hp2⟩
        obtain ⟨hnvin, hkeep⟩ := setFirst_mem hp2
        refine ⟨parents2, hp2, ?_⟩
        intro p hp
        rcases hP0 p hp with h1 | h1
        · by_cases hpr : p = r
          · subst hpr
            rw [← hnv]
            exact Or.inr hnvin
          · exact Or.inl (hkeep p h1 hpr)
        · refine Or.inr (hkeep _ h1 ?_)
          intro hcontra
          exact (newidOf_fresh hfresh p) (hcontra ▸ hrraw)
    obtain ⟨parents2, hp2, hpost⟩ := hsubst
    simp only [hp2]
    have hgc : g c ≠ c := by
      intro hcontra
      apply hfresh.1 c
      rw [hcontra]
      exact List.mem_append_right _ hcg
    rw [if_neg hgc]
    refine ⟨insertA rmap c (g c, parents2), rfl, ?_, ?_⟩
    · intro c' hc' e' he' p hp
      by_cases hcc : c' = c
      · subst hcc
        rw [lookupA_insertA_self] at he'
        obtain rfl := Option.some.inj he'
        exact hpost p hp
      · rw [lookupA_insertA_ne _ _ hcc] at he'
        exact hsub c' hc' e' he' p hp
    · intro k e' he'
      by_cases hkc : k = c
      · subst hkc
        rw [lookupA_insertA_self] at he'
        obtain rfl := Option.some.inj he'
        show g k = newidOf renames g k
        unfold newidOf
        rw [lookupA_eq_none (show k ∉ renames.map Prod.fst from hcr)]
      · rw [lookupA_insertA_ne _ _ hkc] at he'
        exact hval k e' he'

/-- The whole `for c in children[r]` fold succeeds and preserves the
invariants. -/
theorem transposeChildren_total {renames : List (RevId × RevId)} {graph : Graph}
    {g : RevId → RevId} {r : RevId}
    (hfresh : Fresh renames graph g) (hgn : (graph.map Prod.fst).Nodup)
    (hrraw : r ∈ rawUniverse renames graph) :
    ∀ (cs : List RevId), (∀ c ∈ cs, c ∈ childrenOf graph r) →
      ∀ (rmap : RMap), (∃ er, lookupA rmap r = some er) →
      SubstInv renames graph g rmap → ValStable renames g rmap →
      ∃ rmap2, cs.foldlM (transposeChild renames graph g r) rmap = some rmap2 ∧
        SubstInv renames graph g rmap2 ∧ ValStable renames g rmap2 := by
  intro cs
  induction cs with
  | nil =>
    intro _ rmap _ hsub hval
    exact ⟨rmap, rfl, hsub, hval⟩
  | cons c cs ih =>
    intro hcs rmap hr hsub hval
    have hc := hcs c (List.mem_cons_self c cs)
    rcases transposeChild_total hfresh hrraw (childrenOf_mem_keys hc)
      (childrenOf_mem_parent hgn hc) hr hsub hval with ⟨rmap1, hstep, hsub1, hval1⟩
    have hr1 : ∃ er, lookupA rmap1 r = some er := by
      obtain ⟨er, her⟩ := hr
      exact (transposeChild_spec hstep).1 r er her
    rcases ih (fun c' hc' => hcs c' (List.mem_cons_of_mem c hc')) rmap1 hr1 hsub1 hval1
      with ⟨rmap2, hrest, hsub2, hval2⟩
    refine ⟨rmap2, ?_, hsub2, hval2⟩
    rw [List.foldlM_cons, hstep]
    simpa using hrest

/-- The stack invariant survives one pop: the popped revision is marked
processed, and only its not-yet-processed children are pushed. -/
theorem stackInv_step {graph : Graph} {processed todo : List RevId} {r : RevId}
    (hlast : todo.getLast? = some r)
    (hinv : StackInv graph processed todo) :
    StackInv graph (processed.insert r)
      (todo.dropLast ++
        (childrenOf graph r).filter (fun c => decide (c ∉ processed.insert r))) := by
  intro pre s post heq hs
  have htodo : todo = todo.dropLast ++ [r] := eq_dropLast_append_of_getLast? hlast
  rcases List.append_eq_append_iff.mp heq.symm with ⟨a2, ha1, ha2⟩ | ⟨c2, hc1, hc2⟩
  · -- todo.dropLast = pre ++ a2 and s :: post = a2 ++ filtered-children
    cases a2 with
    | nil =>
      -- s is the head of the appended children: it is unprocessed, contradiction
      simp only [List.nil_append] at ha2
      have hsf : s ∈ (childrenOf graph r).filter
          (fun c => decide (c ∉ processed.insert r)) := by
        rw [← ha2]
        exact List.mem_cons_self s post
      have := (List.mem_filter.mp hsf).2
      exact absurd hs (of_decide_eq_true this)
    | cons a0 a2' =>
      rw [List.cons_append] at ha2
      obtain ⟨rfl, hpost⟩ := List.cons.inj ha2
      have htodoeq : todo = pre ++ s :: (a2' ++ [r]) := by
        rw [htodo, ha1]
        simp
      rcases List.mem_insert_iff.mp hs with hsr | hsp
      · -- the second copy of r itself: unprocessed children are all in the push
        subst hsr
        intro c hc
        by_cases hcp : c ∈ processed.insert s
        · exact Or.inl hcp
        · refine Or.inr ?_
          rw [hpost]
          exact List.mem_append_right _ (List.mem_filter.mpr ⟨hc, decide_eq_true hcp⟩)
      · -- an occurrence of a previously processed revision deeper in the stack
        intro c hc
        rcases hinv pre s (a2' ++ [r]) htodoeq hsp c hc with h1 | h1
        · exact Or.inl (List.mem_insert_of_mem h1)
        · rcases List.mem_append.mp h1 with h2 | h2
          · refine Or.inr ?_
            rw [hpost]
            exact List.mem_append_left _ h2
          · obtain rfl := List.mem_singleton.mp h2
            exact Or.inl (List.mem_insert_self _ _)
  · -- s inside the appended children: it is unprocessed, contradiction
    have hsf : s ∈ (childrenOf graph r).filter
        (fun c => decide (c ∉ processed.insert r)) := by
      rw [hc2]
      exact List.mem_append_right _ (List.mem_cons_self s post)
    have := (List.mem_filter.mp hsf).2
    exact absurd hs (of_decide_eq_true this)

theorem sum_map_add {α : Type} (L : List α) (a b : α → Nat) :
    (L.map (fun x => a x + b x)).sum = (L.map a).sum + (L.map b).sum := by
  induction L with
  | nil => rfl
  | cons x xs ih =>
    simp only [List.map_cons, List.sum_cons, ih]
    omega

theorem sum_map_zero_of_not_mem {L : List RevId} {p : RevId}
    (hp : p ∉ L) : (L.map (fun x => if p = x then 1 else 0)).sum = 0 := by
  induction L with
  | nil => rfl
  | cons x xs ih =>
    have hx : p ≠ x := fun h => hp (h ▸ List.mem_cons_self x xs)
    have hxs : p ∉ xs := fun h => hp (List.mem_cons_of_mem x h)
    simp only [List.map_cons, List.sum_cons, if_neg hx, ih hxs]

theorem sum_map_ite_le_one {L : List RevId} (hL : L.Nodup) (p : RevId) :
    (L.map (fun x => if p = x then 1 else 0)).sum ≤ 1 := by
  induction L with
  | nil => simp
  | cons x xs ih =>
    simp only [List.nodup_cons] at hL
    by_cases hx : p = x
    · subst hx
      simp [sum_map_zero_of_not_mem hL.1]
    · simp only [List.map_cons, List.sum_cons, if_neg hx]
      simpa using ih hL.2

theorem sum_filter_counts {L : List RevId} (hL : L.Nodup) (ps : List RevId) :
    (L.map (fun x => (ps.filter (fun p => decide (p = x))).length)).sum ≤ ps.length := by
  induction ps with
  | nil => simp
  | cons p ps ih =>
    have hstep : ∀ x : RevId, ((p :: ps).filter (fun q => decide (q = x))).length =
        (if p = x then 1 else 0) + (ps.filter (fun q => decide (q = x))).length := by
      intro x
      by_cases hp : p = x
      · simp [List.filter_cons, hp, Nat.add_comm]
      · simp [List.filter_cons, hp]
    calc (L.map (fun x => ((p :: ps).filter (fun q => decide (q = x))).length)).sum
        = (L.map (fun x => (if p = x then 1 else 0) +
            (ps.filter (fun q => decide (q = x))).length)).sum := by
          congr 1
          exact List.map_congr_left (fun x _ => hstep x)
      _ = (L.map (fun x => if p = x then 1 else 0)).sum +
            (L.map (fun x => (ps.filter (fun q => decide (q = x))).length)).sum :=
          sum_map_add L _ _
      _ ≤ 1 + ps.length := Nat.add_le_add (sum_map_ite_le_one hL p) ih
      _ = (p :: ps).length := by simp [Nat.add_comm]

theorem length_childrenOf (graph : Graph) (x : RevId) :
    (childrenOf graph x).length =
      (graph.map (fun e => (e.2.filter (fun p => decide (p = x))).length)).sum := by
  unfold childrenOf
  rw [List.length_flatten]
  congr 1
  rw [List.map_map]
  exact List.map_congr_left (fun e _ => by simp)

theorem sum_children_le_totalEdges {L : List RevId} (hL : L.Nodup) (graph : Graph) :
    (L.map (fun x => (childrenOf graph x).length)).sum ≤ totalEdges graph := by
  induction graph with
  | nil =>
    simp [childrenOf, totalEdges]
  | cons e graph ih =>
    have hsplit : ∀ x : RevId, (childrenOf (e :: graph) x).length =
        (e.2.filter (fun p => decide (p = x))).length + (childrenOf graph x).length := by
      intro x
      rw [length_childrenOf, length_childrenOf]
      simp
    calc (L.map (fun x => (childrenOf (e :: graph) x).length)).sum
        = (L.map (fun x => (e.2.filter (fun p => decide (p = x))).length +
            (childrenOf graph x).length)).sum := by
          congr 1
          exact List.map_congr_left (fun x _ => hsplit x)
      _ = (L.map (fun x => (e.2.filter (fun p => decide (p = x))).length)).sum +
            (L.map (fun x => (childrenOf graph x).length)).sum := sum_map_add L _ _
      _ ≤ e.2.length + totalEdges graph := Nat.add_le_add (sum_filter_counts hL e.2) ih
      _ = totalEdges (e :: graph) := by simp [totalEdges]

theorem sum_filter_insert {L : List RevId} (hL : L.Nodup) {processed : List RevId}
    {r : RevId} (hrL : r ∈ L) (hrp : r ∉ processed) (f : RevId → Nat) :
    ((L.filter (fun x => decide (x ∉ processed))).map f).sum =
      ((L.filter (fun x => decide (x ∉ processed.insert r))).map f).sum + f r := by
  induction L with
  | nil => exact absurd hrL (List.not_mem_nil r)
  | cons y L' ih =>
    simp only [List.nodup_cons] at hL
    by_cases hyr : y = r
    · subst hyr
      have hLeq : L'.filter (fun x => decide (x ∉ processed.insert y)) =
          L'.filter (fun x => decide (x ∉ processed)) := by
        refine List.filter_congr ?_
        intro x hx
        have hxy : x ≠ y := fun h => hL.1 (h ▸ hx)
        simp [List.mem_insert_iff, hxy]
      rw [List.filter_cons, List.filter_cons, hLeq]
      rw [if_pos (decide_eq_true hrp), if_neg ?_]
      · simp [Nat.add_comm]
      · simp [List.mem_insert_iff]
    · have hy : decide (y ∉ processed.insert r) = decide (y ∉ processed) := by
        by_cases hyp : y ∈ processed
        · simp [hyp, List.mem_insert_iff]
        · simp [hyp, List.mem_insert_iff, hyr]
      have hrL' : r ∈ L' := by
        rcases List.mem_cons.mp hrL with h1 | h1
        · exact absurd h1.symm hyr
        · exact h1
      rw [List.filter_cons, List.filter_cons, hy]
      by_cases hyp : y ∈ processed
      · rw [if_neg (by simp [hyp]), if_neg (by simp [hyp])]
        exact ih hL.2 hrL'
      · rw [if_pos (by simp [hyp]), if_pos (by simp [hyp])]
        simp only [List.map_cons, List.sum_cons, ih hL.2 hrL']
        omega

/-- The worklist loop is total: with fresh ids and a well-formed graph dict,
it neither crashes nor exhausts the potential `phi`, and performs at most
`phi` pops. -/
theorem transposeLoop_total (renames : List (RevId × RevId)) (graph : Graph)
    (g : RevId → RevId) (hfresh : Fresh renames graph g)
    (hgn : (graph.map Prod.fst).Nodup) :
    ∀ (fuel : Nat) (rmap : RMap) (processed todo trace : List RevId),
      phi renames graph processed todo < fuel →
      StackInv graph processed todo →
      (∀ x ∈ todo, x ∈ allNodes renames graph) →
      (∀ x ∈ todo, ∃ e, lookupA rmap x = some e) →
      (∀ k ∈ renamesKeys renames, ∃ e, lookupA rmap k = some e) →
      SubstInv renames graph g rmap → ValStable renames g rmap →
      ∃ mfin tr, transposeLoop renames graph g fuel rmap processed todo trace =
          some (mfin, tr) ∧
        tr.length ≤ trace.length + phi renames graph processed todo := by
  intro fuel
  induction fuel with
  | zero =>
    intro rmap processed todo trace hphi
    omega
  | succ fuel ih =>
    intro rmap processed todo trace hphi hstack huniv hkeys hseeds hsub hval
    cases hlast : todo.getLast? with
    | none =>
      have htodo : todo = [] := List.getLast?_eq_none_iff.mp hlast
      subst htodo
      refine ⟨rmap, trace, ?_, by simp⟩
      simp [transposeLoop]
    | some r =>
      have htodo : todo = todo.dropLast ++ [r] := eq_dropLast_append_of_getLast? hlast
      have hrtodo : r ∈ todo := by
        rw [htodo]
        exact List.mem_append_right _ (List.mem_singleton.mpr rfl)
      have hruniv : r ∈ allNodes renames graph := huniv r hrtodo
      have hrraw : r ∈ rawUniverse renames graph := List.mem_dedup.mp hruniv
      rcases transposeChildren_total hfresh hgn hrraw (childrenOf graph r)
        (fun c hc => hc) rmap (hkeys r hrtodo) hsub hval with ⟨rmap2, hfold, hsub2, hval2⟩
      obtain ⟨foldMono, foldCov, _, _⟩ :=
        transposeChildren_spec (childrenOf graph r) rmap rmap2 hfold
      have hlen : todo.dropLast.length + 1 = todo.length :=
        length_dropLast_of_getLast? hlast
      -- the new state
      set A := (childrenOf graph r).filter (fun c => decide (c ∉ processed.insert r)) with hA
      have hphi2 : phi renames graph (processed.insert r)
          (todo.dropLast ++ A) < phi renames graph processed todo := by
        by_cases hrp : r ∈ processed
        · -- re-pop of a processed node: nothing is appended
          have hAnil : A = [] := by
            rw [hA]
            rw [List.filter_eq_nil_iff]
            intro c hc
            have hcp : c ∈ processed :=
              (hstack todo.dropLast r [] htodo hrp c hc).resolve_right
                (fun hfalse => absurd hfalse (List.not_mem_nil c))
            simp [List.mem_insert_iff, hcp]
          have hins : processed.insert r = processed := List.insert_of_mem hrp
          rw [hAnil, hins]
          unfold phi
          simp only [List.append_nil]
          omega
        · -- first pop of r: its weight pays for the appended children
          have hS := sum_filter_insert
            (show (allNodes renames graph).Nodup from List.nodup_dedup _) hruniv hrp
            (fun x => (childrenOf graph x).length)
          have hAle : A.length ≤ (childrenOf graph r).length :=
            List.length_filter_le _ _
          simp only at hS
          unfold phi
          rw [List.length_append]
          omega
      have hstack2 : StackInv graph (processed.insert r) (todo.dropLast ++ A) :=
        stackInv_step hlast hstack
      have huniv2 : ∀ x ∈ todo.dropLast ++ A, x ∈ allNodes renames graph := by
        intro x hx
        rcases List.mem_append.mp hx with h1 | h1
        · exact huniv x (by rw [htodo]; exact List.mem_append_left _ h1)
        · have hxc : x ∈ childrenOf graph r := (List.mem_filter.mp h1).1
          exact List.mem_dedup.mpr (List.mem_append_right _ (childrenOf_mem_keys hxc))
      have hkeys2 : ∀ x ∈ todo.dropLast ++ A, ∃ e, lookupA rmap2 x = some e := by
        intro x hx
        rcases List.mem_append.mp hx with h1 | h1
        · obtain ⟨e, he⟩ := hkeys x (by rw [htodo]; exact List.mem_append_left _ h1)
          exact foldMono x e he
        · have hxc : x ∈ childrenOf graph r := (List.mem_filter.mp h1).1
          by_cases hxr : x ∈ renamesKeys renames
          · obtain ⟨e, he⟩ := hseeds x hxr
            exact foldMono x e he
          · exact foldCov x hxc hxr
      have hseeds2 : ∀ k ∈ renamesKeys renames, ∃ e, lookupA rmap2 k = some e := by
        intro k hk
        obtain ⟨e, he⟩ := hseeds k hk
        exact foldMono k e he
      rcases ih rmap2 (processed.insert r) (todo.dropLast ++ A) (trace ++ [r])
        (by omega) hstack2 huniv2 hkeys2 hseeds2 hsub2 hval2 with
        ⟨mfin, tr, hloop, htrlen⟩
      refine ⟨mfin, tr, ?_, ?_⟩
      · simp only [transposeLoop, hlast, hfold]
        exact hloop
      · rw [List.length_append] at htrlen
        simp only [List.length_singleton] at htrlen
        omega

theorem lookupA_insertA_isSome {α β : Type} [DecidableEq α] {l : List (α × β)} {k : α}
    (k' : α) (v : β) (h : ∃ e, lookupA l k = some e) :
    ∃ e, lookupA (insertA l k' v) k = some e := by
  by_cases hk : k = k'
  · subst hk
    exact ⟨v, lookupA_insertA_self l k v⟩
  · obtain ⟨e, he⟩ := h
    exact ⟨e, by rw [lookupA_insertA_ne _ _ hk]; exact he⟩

theorem seedMap_fold_isSome (renames : List (RevId × RevId)) (gp : RevId → List RevId) :
    ∀ (acc : RMap) (k : RevId), (∃ e, lookupA acc k = some e) →
      ∃ e, lookupA (renames.foldl (fun mm e2 => insertA mm e2.1 (e2.2, gp e2.2)) acc) k =
        some e := by
  induction renames with
  | nil => intro acc k h; exact h
  | cons e es ih =>
    intro acc k h
    simp only [List.foldl_cons]
    exact ih _ k (lookupA_insertA_isSome e.1 (e.2, gp e.2) h)

theorem seedMap_covers (renames : List (RevId × RevId)) (gp : RevId → List RevId) :
    ∀ (acc : RMap), ∀ k ∈ renamesKeys renames,
      ∃ e, lookupA (renames.foldl (fun mm e2 => insertA mm e2.1 (e2.2, gp e2.2)) acc) k =
        some e := by
  induction renames with
  | nil => intro acc k hk; exact absurd hk (List.not_mem_nil k)
  | cons e es ih =>
    intro acc k hk
    simp only [List.foldl_cons]
    rcases List.mem_cons.mp hk with h1 | h1
    · subst h1
      exact seedMap_fold_isSome es gp _ _
        ⟨(e.2, gp e.2), lookupA_insertA_self acc e.1 (e.2, gp e.2)⟩
    · exact ih _ k h1

theorem mem_insertA {α β : Type} [DecidableEq α] {l : List (α × β)} {k : α} {v : β}
    {x : α × β} (h : x ∈ insertA l k v) : x ∈ l ∨ x = (k, v) := by
  induction l with
  | nil => simp only [insertA] at h; exact Or.inr (List.mem_singleton.mp h)
  | cons e es ih =>
    obtain ⟨k0, v0⟩ := e
    by_cases h0 : k0 = k
    · simp only [insertA, if_pos h0] at h
      rcases List.mem_cons.mp h with h1 | h1
      · exact Or.inr (by rw [h1, h0])
      · exact Or.inl (List.mem_cons_of_mem _ h1)
    · simp only [insertA, if_neg h0] at h
      rcases List.mem_cons.mp h with h1 | h1
      · exact Or.inl (h1 ▸ List.mem_cons_self _ _)
      · rcases ih h1 with h2 | h2
        · exact Or.inl (List.mem_cons_of_mem _ h2)
        · exact Or.inr h2

theorem seedMap_mem_shape (renames : List (RevId × RevId)) (gp : RevId → List RevId) :
    ∀ (acc : RMap), ∀ x ∈ renames.foldl (fun mm e2 => insertA mm e2.1 (e2.2, gp e2.2)) acc,
      x ∈ acc ∨ ∃ p ∈ renames, x = (p.1, (p.2, gp p.2)) := by
  induction renames with
  | nil => intro acc x hx; exact Or.inl hx
  | cons e es ih =>
    intro acc x hx
    simp only [List.foldl_cons] at hx
    rcases ih _ x hx with h1 | ⟨p, hp, hx2⟩
    · rcases mem_insertA h1 with h2 | h2
      · exact Or.inl h2
      · exact Or.inr ⟨e, List.mem_cons_self _ _, h2⟩
    · exact Or.inr ⟨p, List.mem_cons_of_mem _ hp, hx2⟩

theorem seedMap_valStable (renames : List (RevId × RevId)) (gp : RevId → List RevId)
    (g : RevId → RevId) (hkn : (renamesKeys renames).Nodup) :
    ValStable renames g
      (renames.foldl (fun mm e2 => insertA mm e2.1 (e2.2, gp e2.2)) []) := by
  intro k e he
  have hmem := lookupA_mem he
  rcases seedMap_mem_shape renames gp [] _ hmem with h1 | ⟨p, hp, hx⟩
  · exact absurd h1 (List.not_mem_nil _)
  · have hk : k = p.1 := congrArg Prod.fst hx
    have hev : e = (p.2, gp p.2) := congrArg Prod.snd hx
    subst hk
    subst hev
    show p.2 = newidOf renames g p.1
    unfold newidOf
    have hpp : (p.1, p.2) ∈ renames := by
      obtain ⟨a, b⟩ := p
      exact hp
    rw [lookupA_of_mem_nodup hkn hpp]

theorem seedMap_substInv (renames : List (RevId × RevId)) (graph : Graph)
    (gp : RevId → List RevId) (g : RevId → RevId) :
    SubstInv renames graph g
      (renames.foldl (fun mm e2 => insertA mm e2.1 (e2.2, gp e2.2)) []) := by
  intro c hc e he
  rw [seedMap_lookup_none renames gp hc] at he
  exact absurd he (by simp)

/-- Every id the worklist loop pops comes from the incoming trace, from the
incoming worklist, or from the child index's values — and those values are
always graph keys.  This locates every `children[r]` access of a completed
run inside the child index's key set once the initial worklist is there. -/
theorem transposeLoop_trace_mem (renames : List (RevId × RevId)) (graph : Graph)
    (g : RevId → RevId) :
    ∀ (fuel : Nat) (rmap : RMap) (processed todo trace : List RevId)
      (m : RMap) (tr : List RevId),
      transposeLoop renames graph g fuel rmap processed todo trace = some (m, tr) →
      ∀ x ∈ tr, x ∈ trace ∨ x ∈ todo ∨ x ∈ graph.map Prod.fst := by
  intro fuel
  induction fuel with
  | zero =>
    intro rmap processed todo trace m tr h x hx
    simp only [transposeLoop] at h
    cases todo with
    | nil =>
      have htr : trace = tr := congrArg Prod.snd (Option.some.inj h)
      subst htr
      exact Or.inl hx
    | cons a as => exact absurd h (by simp)
  | succ fuel ih =>
    intro rmap processed todo trace m tr h x hx
    simp only [transposeLoop] at h
    split at h
    · next hlast =>
      have htr : trace = tr := congrArg Prod.snd (Option.some.inj h)
      subst htr
      exact Or.inl hx
    · next r hlast =>
      split at h
      · exact absurd h (by simp)
      · next rmap2 hfold =>
        rcases ih _ _ _ _ _ _ h x hx with h1 | h1 | h1
        · rcases List.mem_append.mp h1 with h2 | h2
          · exact Or.inl h2
          · obtain rfl : x = r := List.mem_singleton.mp h2
            refine Or.inr (Or.inl ?_)
            rw [eq_dropLast_append_of_getLast? hlast]
            exact List.mem_append_right _ (List.mem_singleton.mpr rfl)
        · rcases List.mem_append.mp h1 with h2 | h2
          · refine Or.inr (Or.inl ?_)
            rw [eq_dropLast_append_of_getLast? hlast]
            exact List.mem_append_left _ h2
          · exact Or.inr (Or.inr (childrenOf_mem_keys (List.mem_of_mem_filter h2)))
        · exact Or.inr (Or.inr h1)

/-- Counterexample to C9 as stated: with graph `{A: [], X: [A, P], P: [A]}`
(in that dict order, so `children[A] = [X, P]`) and the single rename
`A -> A2`, the loop pops `A, P, X, X` — the id `X` is popped and expanded
twice, because the processed-set only filters re-additions, and the four
iterations exceed the two reachable descendants `{X, P}` of the seed. -/
theorem generate_transpose_plan_repop_cex :
    generate_transpose_plan [("A", []), ("X", ["A", "P"]), ("P", ["A"])] [("A", "A2")]
        (fun _ => []) (fun s => s ++ "1") =
      some ([("X", ("X1", ["A2", "P1"])), ("P", ("P1", ["A2"]))], ["A", "P", "X", "X"]) ∧
    ¬ (["A", "P", "X", "X"] : List RevId).Nodup ∧
    (["X", "P"] : List RevId).length < (["A", "P", "X", "X"] : List RevId).length :=
  ⟨by decide, by decide, by decide⟩

/-- **Claim C9 (amended).** For every finite graph (acyclicity is not even
needed), seed rename set with distinct keys, fresh id generation, and every
rename key present in the key set of the child index (`childDomain`: graph
nodes and parents occurring in the graph — for a rename key outside it the
source raises KeyError at the `children[r]` lookup of its very first pop),
the `generate_transpose_plan` worklist loop terminates — the function returns
a result — performing at most `|renames| + totalEdges graph` iterations, and
every popped id lies in `childDomain`, so each `children[r]` access of the
run is an in-domain dict lookup.  However, a revision id *can* be popped and
expanded more than once: the processed-set only prevents re-enqueueing of
already-processed ids, not duplicates already in the worklist, and the
iteration count can exceed `|reachable descendants of the seed set|` (see
the counterexample). -/
theorem generate_transpose_plan_terminates (graph : Graph)
    (renames : List (RevId × RevId)) (gp : RevId → List RevId) (g : RevId → RevId)
    (hkn : (renamesKeys renames).Nodup) (hgn : (graph.map Prod.fst).Nodup)
    (hfresh : Fresh renames graph g)
    (hdom : ∀ k ∈ renamesKeys renames, k ∈ childDomain graph) :
    ∃ m tr, generate_transpose_plan graph renames gp g = some (m, tr) ∧
      tr.length ≤ (renamesKeys renames).length + totalEdges graph ∧
      ∀ x ∈ tr, x ∈ childDomain graph := by
  have hphi0 : phi renames graph [] (renamesKeys renames) ≤
      (renamesKeys renames).length + totalEdges graph := by
    unfold phi
    have hfilter : (allNodes renames graph).filter
        (fun x => decide (x ∉ ([] : List RevId))) = allNodes renames graph := by
      rw [List.filter_eq_self]
      intro a _
      simp
    rw [hfilter]
    have hsum := sum_children_le_totalEdges
      (show (allNodes renames graph).Nodup from List.nodup_dedup _) graph
    omega
  rcases transposeLoop_total renames graph g hfresh hgn
    ((renamesKeys renames).length + totalEdges graph + 1)
    (renames.foldl (fun mm e2 => insertA mm e2.1 (e2.2, gp e2.2)) [])
    [] (renamesKeys renames) []
    (by omega)
    (by
      intro pre r post heq hr
      exact absurd hr (List.not_mem_nil _))
    (fun x hx => List.mem_dedup.mpr (List.mem_append_left _ hx))
    (fun x hx => seedMap_covers renames gp [] x hx)
    (fun k hk => seedMap_covers renames gp [] k hk)
    (seedMap_substInv renames graph gp g) (seedMap_valStable renames gp g hkn) with
    ⟨mloop, tr, hloop, hlen⟩
  have hlen0 : tr.length ≤ 0 + phi renames graph [] (renamesKeys renames) := hlen
  have hlen2 : tr.length ≤ (renamesKeys renames).length + totalEdges graph := by
    omega
  refine ⟨(renamesKeys renames).foldl (fun mm k => eraseA mm k) mloop, tr, ?_, hlen2, ?_⟩
  · unfold generate_transpose_plan
    rw [hloop]
  · intro x hx
    rcases transposeLoop_trace_mem renames graph g _ _ _ _ _ _ _ hloop x hx with
      h1 | h1 | h1
    · exact absurd h1 (List.not_mem_nil _)
    · exact hdom x h1
    · exact List.mem_append_left _ h1

theorem append11_ne {x s : String} (hs : s.length = 1) : x ++ "11" ≠ s := by
  intro h
  have h2 := congrArg String.length h
  rw [String.length_append, hs] at h2
  have h3 : ("11" : String).length = 2 := rfl
  rw [h3] at h2
  omega

/-- Witness for the amended C9 on the counterexample graph, with the fresh
generator `s ++ "11"` (its outputs are longer than every graph id): the loop
terminates within `1 + 3 = 4` iterations, every popped id staying inside the
child index's key set. -/
theorem generate_transpose_plan_terminates_witness :
    ∃ m tr, generate_transpose_plan [("A", []), ("X", ["A", "P"]), ("P", ["A"])]
        [("A", "A2")] (fun _ => []) (fun s => s ++ "11") = some (m, tr) ∧
      tr.length ≤ (renamesKeys [("A", "A2")]).length +
        totalEdges [("A", []), ("X", ["A", "P"]), ("P", ["A"])] ∧
      ∀ x ∈ tr, x ∈ childDomain [("A", []), ("X", ["A", "P"]), ("P", ["A"])] :=
  generate_transpose_plan_terminates [("A", []), ("X", ["A", "P"]), ("P", ["A"])]
    [("A", "A2")] (fun _ => []) (fun s => s ++ "11") (by decide) (by decide)
    (by
      constructor
      · intro x hx
        rcases List.mem_cons.mp hx with h1 | hx
        · exact append11_ne (s := "A") rfl h1
        · rcases List.mem_cons.mp hx with h1 | hx
          · exact append11_ne (s := "A") rfl h1
          · rcases List.mem_cons.mp hx with h1 | hx
            · exact append11_ne (s := "X") rfl h1
            · rcases List.mem_cons.mp hx with h1 | hx
              · exact append11_ne (s := "P") rfl h1
              · exact absurd hx (List.not_mem_nil _)
      · intro e he
        obtain rfl := List.mem_singleton.mp he
        decide)
    (by decide)

end BzrRewrite
